import Mathlib

/-!
Shallow embedding of the load-test framework (`src/load-test-framework.js`,
`src/index.js`, `src/utilities.js`).

Modelling conventions:
* JavaScript numbers are modelled as exact rationals (`ℚ`); the special
  values `NaN` and `+Infinity` that arise from division are modelled by the
  dedicated type `JSNum` below, together with JS truthiness.
* Asynchrony is resolved into explicit sequencing: a virtual user's promise
  chain is a fold over the step list, and the HTTP transport collaborator
  (axios) together with wall-clock timing is abstracted into an oracle that
  yields, for each step execution, the (optional) response and the measured
  elapsed time.  `openHttpRequest` converts a transport rejection into a
  resolved `none` response (`error.response` being `undefined`), which is
  why the oracle's response type is `Option Response`.
* A rejected promise is an `Except.error`; a resolved one is `Except.ok`.
* JavaScript objects used as string-keyed dictionaries are modelled as
  insertion-ordered association lists (`List (String × _)`).
-/

set_option autoImplicit false

namespace LoadTest

/-- An HTTP response as seen by the framework: the status and the (optional)
`data` payload, serialised.  (`axios` responses; bodies are raw text here.) -/
structure Response where
  status : Int
  data : Option String
deriving DecidableEq, Repr

/-- A registered step (the object pushed by `loadTestFramework.addStep`).
The user assertion function is modelled as a Boolean predicate on the
response: `true` means the JS function returned without throwing. -/
structure Step where
  name : String
  isHttps : Bool
  method : String
  url : String
  body : Option String
  headers : List (String × String)
  expectedResponseCode : Int
  assertionOk : Response → Bool
  sleepBeforeNextStepInMs : Int

/-- One `StepData` record as built by `runStep`.  `responseTime` is always a
number by the time the record is stored (the `tap` on `openHttpRequest`
runs unconditionally), so it is not optional here; `responseStatusCode`
is `null` (`none`) when the transport produced no response. -/
structure StepData where
  responseTime : ℚ
  responseStatusCode : Option Int
  succeeded : Bool
  error : Option String
  step : Step

/-- One `TestData` record as built by `runTest` (a virtual user's run).
`repetition` is stamped by `addFieldRepetition` after the owning wave
completes, hence optional.  The `id` produced by the `uuid` collaborator is
not modelled (no property depends on it). -/
structure TestData where
  id : String
  stepsData : List StepData
  succeeded : Bool
  error : Option String
  repetition : Option Int

/-- `assertStatusCode(res, expectedStatusCode)`: rejects unless the response
exists and its status equals the expected one; resolves with the response
otherwise.  The error message carries the serialised body (`null` when the
response is absent). -/
def assertStatusCode (res : Option Response) (expectedStatusCode : Int) :
    Except String Response :=
  match res with
  | none =>
      Except.error "Got errors asserting the Status Code: AssertionError: expected undefined to exist -> Received body: null"
  | some r =>
      if r.status = expectedStatusCode then Except.ok r
      else
        Except.error ("Got errors asserting the Status Code: AssertionError -> Received body: "
          ++ (r.data.getD "undefined"))

/-- `applyUserAssertions(res, assertionFunction)`: rejects when the user
assertion throws, resolves with the response otherwise. -/
def applyUserAssertions (res : Response) (assertionOk : Response → Bool) :
    Except String Response :=
  if assertionOk res then Except.ok res
  else
    Except.error ("Got errors asserting Response: AssertionError -> Received body: "
      ++ (res.data.getD "undefined"))

/-- `runStep(step)`, with the transport call and timing supplied by the
caller: `res` is what `openHttpRequest` resolved with (`none` when the
transport rejected and `error.response` was `undefined`) and `elapsed` the
measured elapsed time.  Always produces a `StepData`; never rejects. -/
def runStep (step : Step) (res : Option Response) (elapsed : ℚ) : StepData :=
  let statusCode : Option Int := match res with
    | some r => some r.status
    | none => none
  let outcome : Except String Unit :=
    match assertStatusCode res step.expectedResponseCode with
    | Except.error e => Except.error e
    | Except.ok r =>
        match applyUserAssertions r step.assertionOk with
        | Except.error e => Except.error e
        | Except.ok _ => Except.ok ()
  match outcome with
  | Except.ok _ =>
      { responseTime := elapsed, responseStatusCode := statusCode,
        succeeded := true, error := none, step := step }
  | Except.error e =>
      { responseTime := elapsed, responseStatusCode := statusCode,
        succeeded := false,
        error := some ("Step \"" ++ step.name ++ "\" failed: " ++ e),
        step := step }

/-- A per-run transport/timing oracle: for the `i`-th step of the run, the
response `openHttpRequest` resolved with and the elapsed time. -/
def StepOracle : Type := Nat → Option Response × ℚ

/-- The promise chain built by `runTest`'s `steps.reduce`: each step's
`StepData` is appended (`storeStepData` via `tap`), then
`abortTestIfNecessary` rejects when that step failed, skipping the
remaining steps (including that step's `sleep`).  Returns the accumulated
`stepsData` and whether the whole chain resolved (`true`) or was aborted
(`false`). -/
def runTestLoop (oracle : StepOracle) : List Step → Nat → List StepData →
    List StepData × Bool
  | [], _, acc => (acc, true)
  | step :: rest, i, acc =>
      let sd := runStep step (oracle i).1 (oracle i).2
      if sd.succeeded then runTestLoop oracle rest (i + 1) (acc ++ [sd])
      else (acc ++ [sd], false)

/-- `runTest(steps)`: rejects when no steps are registered; otherwise runs
the chain and — thanks to the trailing `catch` — always resolves with the
`TestData`, marked failed when any step aborted the chain. -/
def runTest (steps : List Step) (oracle : StepOracle) : Except String TestData :=
  if steps.length < 1 then
    Except.error "Received no Steps to compose a Test"
  else
    let result := runTestLoop oracle steps 0 []
    Except.ok
      { id := "uid", stepsData := result.1, succeeded := result.2,
        error := if result.2 then none else some "Aborting Test due a step error",
        repetition := none }

/-- A suite-level oracle: repetition number, thread index, step index
(`oracle rep thread` is the `StepOracle` of that virtual user). -/
def SuiteOracle : Type := Int → Nat → StepOracle

/-- `Promise.all` over already-settled promises: resolves with the list of
values when all resolved, otherwise rejects (with the first rejection). -/
def promiseAll {α : Type} : List (Except String α) → Except String (List α)
  | [] => Except.ok []
  | Except.error e :: _ => Except.error e
  | Except.ok a :: rest =>
      match promiseAll rest with
      | Except.error e => Except.error e
      | Except.ok as => Except.ok (a :: as)

/-- One wave: the `numOfThreads` concurrent virtual users spawned by the
`for` loop in `runLoadTest`.  The pre-run jitter `sleep` only delays a
thread and does not affect its settled value, so it is not represented. -/
def runWave (steps : List Step) (oracle : Nat → StepOracle) (numOfThreads : Int) :
    List (Except String TestData) :=
  (List.range numOfThreads.toNat).map (fun t => runTest steps (oracle t))

/-- `addFieldRepetition(testsData, repetitionIndex)`: stamp every run of the
completed wave with the wave's repetition index. -/
def addFieldRepetition (testsData : List TestData) (repetitionIndex : Int) :
    List TestData :=
  testsData.map (fun t => { t with repetition := some repetitionIndex })

/-- `loadTestFramework.runLoadTest`: validates the config (re-validated on
every recursive call, with the same values), then runs waves sequentially,
stamping and accumulating each wave's runs, until
`currentRepetition > numOfRepetitions`.  The top-level call has
`currentRepetition = 1` and an empty accumulator. -/
def runLoadTest (steps : List Step) (oracle : SuiteOracle)
    (numOfThreads numOfRepetitions maxTimeBeforeStartingInMs : Int)
    (currentRepetition : Int) (testDataAccumulator : List TestData) :
    Except String (List TestData) :=
  if numOfThreads < 1 then
    Except.error "Parameter numOfThreads must be provided and greather than 0"
  else if numOfRepetitions < 1 then
    Except.error "Parameter numOfRepetitions must be provided and greather than 0"
  else if maxTimeBeforeStartingInMs < 0 then
    Except.error "Parameter maxTimeBeforeStartingInMs must be provided and greather than or equal 0"
  else if _h : currentRepetition > numOfRepetitions then
    Except.ok testDataAccumulator
  else
    match promiseAll (runWave steps (oracle currentRepetition) numOfThreads) with
    | Except.error e => Except.error e
    | Except.ok testsData =>
        runLoadTest steps oracle numOfThreads numOfRepetitions
          maxTimeBeforeStartingInMs (currentRepetition + 1)
          (testDataAccumulator ++ addFieldRepetition testsData currentRepetition)
termination_by (numOfRepetitions + 1 - currentRepetition).toNat
decreasing_by omega

/-- Observable events of one virtual user's promise chain, for the temporal
claims: `execStep i s` is the completion of the `i`-th step's `runStep`
(with its success flag), `sleepAfter i d` the completion of that step's
post-step `sleep(step.sleepBeforeNextStepInMs)`. -/
inductive Event where
  | execStep : Nat → Bool → Event
  | sleepAfter : Nat → Int → Event
deriving DecidableEq, Repr

/-- Total order key: step `i`'s execution happens-before its own sleep,
which happens-before step `i + 1`'s execution. -/
def evKey : Event → Nat
  | Event.execStep i _ => 2 * i
  | Event.sleepAfter i _ => 2 * i + 1

/-- The event trace of `runTest`'s promise chain, in resolution order: the
chain `runStep → tap(storeStepData) → abortTestIfNecessary → sleep` is
strictly sequential, the sleep runs only when the step succeeded, and a
failed step rejects the chain so no later event occurs. -/
def runTestEventsLoop (oracle : StepOracle) : List Step → Nat → List Event
  | [], _ => []
  | step :: rest, i =>
      let sd := runStep step (oracle i).1 (oracle i).2
      if sd.succeeded then
        Event.execStep i true :: Event.sleepAfter i step.sleepBeforeNextStepInMs ::
          runTestEventsLoop oracle rest (i + 1)
      else [Event.execStep i false]

/-- The full trace of one run. -/
def runTestEvents (steps : List Step) (oracle : StepOracle) : List Event :=
  runTestEventsLoop oracle steps 0

/-! ### JavaScript number semantics for the aggregation code

`computeAvg` divides by `arr.length`, which in JavaScript yields `NaN`
(`0 / 0`) on an empty array; the result is later fed through a truthiness
check (`x || 'N/A'`).  `JSNum` models exactly the values reachable here:
finite numbers, `NaN`, and `+Infinity` (the latter only for faithfulness
of `a / 0` with `a ≠ 0`, which is unreachable in this code base). -/
inductive JSNum where
  | num : ℚ → JSNum
  | nan : JSNum
  | inf : JSNum
deriving DecidableEq, Repr

/-- JS `+` on the reachable values. -/
def JSNum.add : JSNum → JSNum → JSNum
  | JSNum.num a, JSNum.num b => JSNum.num (a + b)
  | JSNum.nan, _ => JSNum.nan
  | _, JSNum.nan => JSNum.nan
  | JSNum.inf, _ => JSNum.inf
  | _, JSNum.inf => JSNum.inf

/-- JS `/` on the reachable (non-negative) values: `0 / 0 = NaN`,
`a / 0 = +Infinity` for `a ≠ 0`. -/
def JSNum.div : JSNum → JSNum → JSNum
  | JSNum.num a, JSNum.num b =>
      if b = 0 then (if a = 0 then JSNum.nan else JSNum.inf) else JSNum.num (a / b)
  | JSNum.nan, _ => JSNum.nan
  | _, JSNum.nan => JSNum.nan
  | JSNum.inf, _ => JSNum.inf
  | JSNum.num _, JSNum.inf => JSNum.num 0

/-- JS truthiness of a number: `0` and `NaN` are falsy. -/
def JSNum.truthy : JSNum → Bool
  | JSNum.num q => if q = 0 then false else true
  | JSNum.nan => false
  | JSNum.inf => true

/-- `computeAvg(arr)`: `arr.reduce((acc, v) => acc + v, 0) / arr.length`. -/
def computeAvg (arr : List JSNum) : JSNum :=
  JSNum.div (arr.foldl JSNum.add (JSNum.num 0)) (JSNum.num (arr.length : ℚ))

/-- `computeAvgResponseTimeForTest(testData)`: average of the run's step
response times. -/
def computeAvgResponseTimeForTest (testData : TestData) : JSNum :=
  computeAvg (testData.stepsData.map (fun stepData => JSNum.num stepData.responseTime))

/-- `computeAvgResponseTimeForTests(testsData)`: average of the per-run
averages. -/
def computeAvgResponseTimeForTests (testsData : List TestData) : JSNum :=
  computeAvg (testsData.map computeAvgResponseTimeForTest)

/-- `results.filter(result => result.succeeded)` in `printReport`. -/
def testsThatSucceeded (results : List TestData) : List TestData :=
  results.filter (fun result => result.succeeded)

/-- `results.filter(result => !result.succeeded)` in `printReport`. -/
def testsThatFailed (results : List TestData) : List TestData :=
  results.filter (fun result => !result.succeeded)

/-- What an average field of the report shows: a number, or the literal
string `N/A`. -/
inductive AvgField where
  | ms : JSNum → AvgField
  | na : AvgField
deriving DecidableEq, Repr

/-- The JS idiom `x || 'N/A'` applied to a computed average. -/
def orNA (x : JSNum) : AvgField :=
  if x.truthy then AvgField.ms x else AvgField.na

/-- `avgResponseTime.successes` in `printReport`:
`computeAvgResponseTimeForTests(testsThatSucceeded) || 'N/A'`. -/
def avgSuccessesField (results : List TestData) : AvgField :=
  orNA (computeAvgResponseTimeForTests (testsThatSucceeded results))

/-- `avgResponseTime.failures` in `printReport`:
`computeAvgResponseTimeForTests(testsThatFailed) || 'N/A'`. -/
def avgFailuresField (results : List TestData) : AvgField :=
  orNA (computeAvgResponseTimeForTests (testsThatFailed results))

/-! ### String-keyed JS objects as insertion-ordered association lists -/

/-- Key membership (`hasOwnProperty`). -/
def hasKey {α : Type} (m : List (String × α)) (k : String) : Bool :=
  m.any (fun p => p.1 = k)

/-- Property read with a default for an absent key. -/
def getD {α : Type} (m : List (String × α)) (k : String) (d : α) : α :=
  match m.find? (fun p => p.1 = k) with
  | some p => p.2
  | none => d

/-- Property write: overwrite in place when the key exists, append
otherwise (JS insertion order). -/
def setK {α : Type} (m : List (String × α)) (k : String) (v : α) :
    List (String × α) :=
  if hasKey m k then m.map (fun p => if p.1 = k then (p.1, v) else p)
  else m ++ [(k, v)]

/-- The `if (!acc.hasOwnProperty(key)) acc[key] = 1; else acc[key]++`
pattern shared by `countResponseCodes` and
`generateDistributionReportForErroredSteps`. -/
def bump (m : List (String × Nat)) (k : String) : List (String × Nat) :=
  if hasKey m k then m.map (fun p => if p.1 = k then (p.1, p.2 + 1) else p)
  else m ++ [(k, 1)]

/-- `getStepDataWithError(testData)`: `stepsData[stepsData.length - 1]`;
`none` models the `undefined` read on an empty `stepsData`. -/
def getStepDataWithError (testData : TestData) : Option StepData :=
  testData.stepsData.getLast?

/-- The JS string `'statusCode' + statusCode` (`null` prints as `null`). -/
def statusCodeKey : Option Int → String
  | some n => "statusCode" ++ toString n
  | none => "statusCodenull"

/-- `countResponseCodes(testsData)`: tally, per status-code key, of the last
recorded step of each (failed) run.  A run with an empty `stepsData` makes
the JS code throw on the `undefined` property read; that throw is the
`Except.error` case. -/
def countResponseCodes (testsData : List TestData) :
    Except String (List (String × Nat)) :=
  testsData.foldlM
    (fun acc testData =>
      match getStepDataWithError testData with
      | none => Except.error "TypeError: cannot read property of undefined"
      | some stepData => Except.ok (bump acc (statusCodeKey stepData.responseStatusCode)))
    []

/-- The tally of `generateDistributionReportForErroredSteps`: per step-name
key, over the last recorded step of each (failed) run. -/
def countErroredSteps (testsData : List TestData) :
    Except String (List (String × Nat)) :=
  testsData.foldlM
    (fun acc testData =>
      match getStepDataWithError testData with
      | none => Except.error "TypeError: cannot read property of undefined"
      | some stepData => Except.ok (bump acc stepData.step.name))
    []

/-- The rendering shared by both distribution reports: keys sorted
(`Object.keys(m).sort()`, lexicographic), one `key: count` line per key
with the source's trailing padding, and the literal `N/A` when the
accumulated message is empty. -/
def renderTally (m : List (String × Nat)) : String :=
  let keys := List.insertionSort (fun a b => a ≤ b) (m.map Prod.fst)
  let msg := keys.foldl (fun acc k => acc ++ k ++ ": " ++ toString (getD m k 0) ++ "\n      ") ""
  if msg = "" then "N/A" else msg

/-- `generateDistributionReportForStatusCode(testsData)`. -/
def generateDistributionReportForStatusCode (testsData : List TestData) :
    Except String String :=
  match countResponseCodes testsData with
  | Except.error e => Except.error e
  | Except.ok m => Except.ok (renderTally m)

/-- `generateDistributionReportForErroredSteps(testsData)`. -/
def generateDistributionReportForErroredSteps (testsData : List TestData) :
    Except String String :=
  match countErroredSteps testsData with
  | Except.error e => Except.error e
  | Except.ok m => Except.ok (renderTally m)

/-- `stepsData.find(stepData => stepData.step.name === stepName)`. -/
def findStepData (testData : TestData) (stepName : String) : Option StepData :=
  testData.stepsData.find? (fun stepData => stepData.step.name = stepName)

/-- The inner `testsData.forEach` of `computeAvgResponseTimeForEachStep`
for one `stepName`, updating the `executionsOfStep` and `totalTimeOnStep`
objects. -/
def processRunsForName (testsData : List TestData) (stepName : String)
    (maps : List (String × Nat) × List (String × ℚ)) :
    List (String × Nat) × List (String × ℚ) :=
  testsData.foldl
    (fun acc testData =>
      match findStepData testData stepName with
      | some stepData =>
          (setK acc.1 stepName (getD acc.1 stepName 0 + 1),
           setK acc.2 stepName (getD acc.2 stepName 0 + stepData.responseTime))
      | none => acc)
    maps

/-- The body of the outer `stepNames.forEach` of
`computeAvgResponseTimeForEachStep`: initialise the two counters for the
name when absent (`hasOwnProperty` guards), then accumulate over all
runs. -/
def initThenProcess (testsData : List TestData)
    (acc : List (String × Nat) × List (String × ℚ)) (stepName : String) :
    List (String × Nat) × List (String × ℚ) :=
  let ex := if hasKey acc.1 stepName then acc.1 else acc.1 ++ [(stepName, 0)]
  let tot := if hasKey acc.2 stepName then acc.2 else acc.2 ++ [(stepName, 0)]
  processRunsForName testsData stepName (ex, tot)

/-- `computeAvgResponseTimeForEachStep(testsData)`: step names are taken
from the *first* run (`testsData[0].stepsData`; the `undefined` read on an
empty collection is the `Except.error` case); for each name the two
counters are initialised when absent and accumulated over every run that
contains a step of that name, and the final object maps each name to
`totalTime / executions`. -/
def computeAvgResponseTimeForEachStep (testsData : List TestData) :
    Except String (List (String × JSNum)) :=
  match testsData with
  | [] => Except.error "TypeError: cannot read property of undefined"
  | first :: _ =>
      let stepNames := first.stepsData.map (fun stepData => stepData.step.name)
      let maps := stepNames.foldl (initThenProcess testsData) ([], [])
      Except.ok (stepNames.foldl
        (fun acc stepName =>
          setK acc stepName
            (JSNum.div (JSNum.num (getD maps.2 stepName 0))
              (JSNum.num ((getD maps.1 stepName 0 : Nat) : ℚ))))
        [])

/-! ### Step registration (`addStep`, `normalizeUrl`) -/

/-- `url.indexOf('http') !== -1`: does `"http"` occur anywhere in the
URL (as a substring, over the character list)? -/
def containsHttp : List Char → Bool
  | [] => false
  | c :: rest => List.isPrefixOf "http".toList (c :: rest) || containsHttp rest

/-- `normalizeUrl({ url, protocol })`: prepend `protocol + '://'` unless
`"http"` occurs somewhere in the URL. -/
def normalizeUrl (url : String) (protocol : String) : String :=
  let hasProtocol := containsHttp url.toList
  if hasProtocol then url else protocol ++ "://" ++ url

/-- The parameters of `loadTestFramework.addStep`, with the source's
defaults already split out (`none` means the caller omitted the optional
parameter). -/
structure AddStepParams where
  name : String
  isHttps : Bool
  method : String
  url : String
  body : Option String
  headers : List (String × String)
  expectedResponseCode : Int
  assertionOk : Option (Response → Bool)
  sleepBeforeNextStepInMs : Int

/-- `defaultAssertionFunction(res)`: the response exists (always true once
the status check passed) and has a `data` property. -/
def defaultAssertionFunction (res : Response) : Bool :=
  res.data.isSome

/-- `Object.assign(jsonHeaders, headers)`: each explicit header overwrites
(or extends) the default JSON headers, in order. -/
def objectAssign (target overrides : List (String × String)) :
    List (String × String) :=
  overrides.foldl (fun acc p => setK acc p.1 p.2) target

/-- `loadTestFramework.addStep(testParams)`: validations in source order,
then the constructed step (with the protocol-normalized URL and merged
headers) as pushed onto `loadTestFramework.steps`. -/
def addStep (p : AddStepParams) : Except String Step :=
  if p.name = "" then
    Except.error "Parameter name must be provided"
  else if p.method = "" then
    Except.error "Parameter method must be provided"
  else if p.url = "" then
    Except.error "Parameter url must be provided"
  else if p.sleepBeforeNextStepInMs < 0 then
    Except.error "Parameter sleepBeforeNextStepInMs must be greather than or equal 0"
  else
    let normalizedUrl := normalizeUrl p.url (if p.isHttps then "https" else "http")
    if p.expectedResponseCode = 0 ∨ p.expectedResponseCode < 100 ∨ 600 ≤ p.expectedResponseCode then
      Except.error "Parameter expectedResponseCode must be provided and be a valid HTTP Response Code"
    else
      let allowedMethods := ["get", "head", "post", "put", "patch", "delete"]
      if allowedMethods.contains p.method then
        Except.ok
          { name := p.name, isHttps := p.isHttps, method := p.method,
            url := normalizedUrl, body := p.body,
            headers := objectAssign
              [("Content-Type", "application/json"), ("Accept-Type", "application/json")]
              p.headers,
            expectedResponseCode := p.expectedResponseCode,
            assertionOk := p.assertionOk.getD defaultAssertionFunction,
            sleepBeforeNextStepInMs := p.sleepBeforeNextStepInMs }
      else
        Except.error "Parameter method must be a valid HTTP Verb in lower case"

/-! ### Structure of a single run's step chain -/

theorem runTestLoop_nil (oracle : StepOracle) (i : Nat) (acc : List StepData) :
    runTestLoop oracle [] i acc = (acc, true) := rfl

theorem runTestLoop_cons (oracle : StepOracle) (step : Step) (rest : List Step)
    (i : Nat) (acc : List StepData) :
    runTestLoop oracle (step :: rest) i acc =
      (if (runStep step (oracle i).1 (oracle i).2).succeeded then
        runTestLoop oracle rest (i + 1) (acc ++ [runStep step (oracle i).1 (oracle i).2])
      else (acc ++ [runStep step (oracle i).1 (oracle i).2], false)) := rfl

/-- The chain appends records in execution order; a resolved chain has one
record per step, all successful; an aborted chain ends at its first failed
record, with every earlier record successful. -/
theorem runTestLoop_spec (oracle : StepOracle) (steps : List Step) :
    ∀ (i : Nat) (acc : List StepData),
      ∃ newPart,
        (runTestLoop oracle steps i acc).1 = acc ++ newPart ∧
        newPart.length ≤ steps.length ∧
        ((runTestLoop oracle steps i acc).2 = true →
          newPart.length = steps.length ∧ ∀ sd ∈ newPart, sd.succeeded = true) ∧
        ((runTestLoop oracle steps i acc).2 = false →
          ∃ good bad, newPart = good ++ [bad] ∧
            (∀ sd ∈ good, sd.succeeded = true) ∧ bad.succeeded = false) := by
  induction steps with
  | nil =>
      intro i acc
      exact ⟨[], by simp [runTestLoop_nil]⟩
  | cons step rest ih =>
      intro i acc
      by_cases hsd : (runStep step (oracle i).1 (oracle i).2).succeeded = true
      · obtain ⟨np, h1, h2, h3, h4⟩ := ih (i + 1) (acc ++ [runStep step (oracle i).1 (oracle i).2])
        refine ⟨runStep step (oracle i).1 (oracle i).2 :: np, ?_, ?_, ?_, ?_⟩
        · rw [runTestLoop_cons, if_pos hsd] at *
          simpa using h1
        · simpa using Nat.succ_le_succ h2
        · rw [runTestLoop_cons, if_pos hsd]
          intro hres
          obtain ⟨hlen, hall⟩ := h3 hres
          refine ⟨by simpa using hlen, ?_⟩
          intro sd hsdmem
          rcases List.mem_cons.mp hsdmem with hEq | hmem
          · exact hEq ▸ hsd
          · exact hall sd hmem
        · rw [runTestLoop_cons, if_pos hsd]
          intro hres
          obtain ⟨good, bad, hnp, hgood, hbad⟩ := h4 hres
          refine ⟨runStep step (oracle i).1 (oracle i).2 :: good, bad, by simp [hnp], ?_, hbad⟩
          intro sd hsdmem
          rcases List.mem_cons.mp hsdmem with hEq | hmem
          · exact hEq ▸ hsd
          · exact hgood sd hmem
      · have hsd' : (runStep step (oracle i).1 (oracle i).2).succeeded = false :=
          Bool.not_eq_true _ ▸ (by simpa using hsd)
        refine ⟨[runStep step (oracle i).1 (oracle i).2], ?_, ?_, ?_, ?_⟩
        · rw [runTestLoop_cons, if_neg (by simp [hsd'])]
        · simp
        · rw [runTestLoop_cons, if_neg (by simp [hsd'])]
          intro hres
          simp at hres
        · rw [runTestLoop_cons, if_neg (by simp [hsd'])]
          intro _
          exact ⟨[], runStep step (oracle i).1 (oracle i).2, by simp, by simp, hsd'⟩

/-- A run produced by `runTest` always has the shape given by
`runTestLoop_spec`, started from the empty accumulator. -/
theorem runTest_ok_shape (steps : List Step) (oracle : StepOracle)
    (run : TestData) (h : runTest steps oracle = Except.ok run) :
    run.stepsData = (runTestLoop oracle steps 0 []).1 ∧
    run.succeeded = (runTestLoop oracle steps 0 []).2 ∧ 1 ≤ steps.length := by
  by_cases hlen : steps.length < 1
  · rw [runTest, if_pos hlen] at h
    cases h
  · rw [runTest, if_neg hlen] at h
    cases h
    exact ⟨rfl, rfl, Nat.le_of_not_lt hlen⟩

/-- C2 (amended): a run's `stepsData` never has more records than there are
registered steps, and a succeeded run has exactly one record per step.
(The converse direction of the original claim is false: a run that fails
at the last registered step also has full length — see the
counterexample.) -/
theorem c2_stepsData_length (steps : List Step) (oracle : StepOracle)
    (run : TestData) (h : runTest steps oracle = Except.ok run) :
    run.stepsData.length ≤ steps.length ∧
    (run.succeeded = true → run.stepsData.length = steps.length) := by
  obtain ⟨hsd, hsucc, _⟩ := runTest_ok_shape steps oracle run h
  obtain ⟨np, h1, h2, h3, _⟩ := runTestLoop_spec oracle steps 0 []
  rw [hsd, h1]
  simp only [List.nil_append]
  refine ⟨h2, ?_⟩
  intro hok
  exact (h3 (hsucc ▸ hok)).1

/-! ### Concrete fixtures for counterexamples and witnesses -/

/-- A registered step expecting status 200. -/
def wStep : Step :=
  { name := "s", isHttps := false, method := "get", url := "http://h",
    body := none, headers := [], expectedResponseCode := 200,
    assertionOk := fun _ => true, sleepBeforeNextStepInMs := 3 }

/-- A transport that always answers 200 with a body, in 10 ms. -/
def wOracle200 : StepOracle := fun _ => (some { status := 200, data := some "b" }, 10)

/-- A transport that always answers 500 with a body, in 10 ms. -/
def wOracle500 : StepOracle := fun _ => (some { status := 500, data := some "b" }, 10)

/-- The run `runTest [wStep] wOracle200` resolves with. -/
def wRunOk : TestData :=
  { id := "uid",
    stepsData := [runStep wStep (some { status := 200, data := some "b" }) 10],
    succeeded := true, error := none, repetition := none }

/-- The run `runTest [wStep] wOracle500` resolves with. -/
def wRunFail : TestData :=
  { id := "uid",
    stepsData := [runStep wStep (some { status := 500, data := some "b" }) 10],
    succeeded := false, error := some "Aborting Test due a step error",
    repetition := none }

theorem runTest_wOk : runTest [wStep] wOracle200 = Except.ok wRunOk := rfl

theorem runTest_wFail : runTest [wStep] wOracle500 = Except.ok wRunFail := rfl

/-- C2, counterexample to the claim as stated: with one registered step
whose expected status is 200 and a transport answering 500, the produced
run has `stepsData.length` equal to the number of registered steps and yet
did not succeed — so "length equals the number of registered steps iff the
run succeeded" fails in the only-if direction. -/
theorem c2_counterexample :
    (runTest [wStep] wOracle500).toOption.map
      (fun run => (run.stepsData.length, run.succeeded)) =
      some (([wStep] : List Step).length, false) := rfl

/-- C2, witness: on a concrete one-step suite with a 200-answering
transport, the bound and the success direction hold. -/
theorem c2_stepsData_length_witness :
    wRunOk.stepsData.length ≤ ([wStep] : List Step).length ∧
    (wRunOk.succeeded = true → wRunOk.stepsData.length = ([wStep] : List Step).length) :=
  c2_stepsData_length [wStep] wOracle200 wRunOk runTest_wOk

/-- C3: a produced run with at least one record is failed exactly when its
last record is failed, and in a failed run every record before the last is
successful. -/
theorem c3_failed_iff_last_failed (steps : List Step) (oracle : StepOracle)
    (run : TestData) (h : runTest steps oracle = Except.ok run)
    (hne : run.stepsData ≠ []) :
    ∃ last, run.stepsData.getLast? = some last ∧
      (run.succeeded = false ↔ last.succeeded = false) ∧
      (run.succeeded = false → ∀ sd ∈ run.stepsData.dropLast, sd.succeeded = true) := by
  obtain ⟨hsd, hsucc, _⟩ := runTest_ok_shape steps oracle run h
  obtain ⟨np, h1, _, h3, h4⟩ := runTestLoop_spec oracle steps 0 []
  simp only [List.nil_append] at h1
  rw [h1] at hsd
  by_cases hres : (runTestLoop oracle steps 0 []).2 = true
  · obtain ⟨_, hall⟩ := h3 hres
    have hnp : np ≠ [] := by
      intro hcon
      exact hne (by rw [hsd, hcon])
    refine ⟨np.getLast hnp, by rw [hsd]; exact List.getLast?_eq_getLast_of_ne_nil hnp, ?_, ?_⟩
    · constructor
      · intro hcon
        rw [hsucc, hres] at hcon
        cases hcon
      · intro hlastfail
        have : (np.getLast hnp).succeeded = true := hall _ (List.getLast_mem hnp)
        rw [this] at hlastfail
        cases hlastfail
    · intro hcon
      rw [hsucc, hres] at hcon
      cases hcon
  · have hres' : (runTestLoop oracle steps 0 []).2 = false := by
      revert hres
      cases (runTestLoop oracle steps 0 []).2 <;> simp
    obtain ⟨good, bad, hnp, hgood, hbad⟩ := h4 hres'
    refine ⟨bad, ?_, ?_, ?_⟩
    · rw [hsd, hnp]
      exact List.getLast?_concat good
    · rw [hsucc, hres', hbad]
    · intro _
      intro sd hmem
      rw [hsd, hnp, List.dropLast_concat] at hmem
      exact hgood sd hmem

/-- C3, witness: the concrete failed one-step run. -/
theorem c3_failed_iff_last_failed_witness :
    ∃ last, wRunFail.stepsData.getLast? = some last ∧
      (wRunFail.succeeded = false ↔ last.succeeded = false) ∧
      (wRunFail.succeeded = false → ∀ sd ∈ wRunFail.stepsData.dropLast, sd.succeeded = true) :=
  c3_failed_iff_last_failed [wStep] wOracle500 wRunFail runTest_wFail
    (by simp [wRunFail])

/-- C4: when the transport rejects (no response: `error.response` is
`undefined` and `openHttpRequest` resolves with it), `runStep` still
resolves, with a failed record whose `responseStatusCode` is `null`; the
chain aborts at that record exactly as for an assertion failure (nothing
after it runs); and `runTest` still resolves to a `TestRun` whenever at
least one step is registered — it never rejects. -/
theorem c4_transport_rejection (step : Step) (elapsed : ℚ)
    (steps : List Step) (oracle : StepOracle) (hne : steps ≠ []) :
    (runStep step none elapsed).succeeded = false ∧
    (runStep step none elapsed).responseStatusCode = none ∧
    (∀ (rest : List Step) (i : Nat) (acc : List StepData), (oracle i).1 = none →
      runTestLoop oracle (step :: rest) i acc =
        (acc ++ [runStep step none (oracle i).2], false)) ∧
    (∃ run, runTest steps oracle = Except.ok run) := by
  have hfail : ∀ q : ℚ, (runStep step none q).succeeded = false := fun _ => rfl
  refine ⟨hfail elapsed, rfl, ?_, ?_⟩
  · intro rest i acc hnone
    rw [runTestLoop_cons, hnone]
    rw [if_neg (by rw [hfail]; exact Bool.false_ne_true)]
  · have hlen : ¬ steps.length < 1 := by
      have := List.length_pos.mpr hne
      omega
    rw [runTest, if_neg hlen]
    exact ⟨_, rfl⟩

/-- C4, witness: the concrete one-step suite under a transport that always
rejects. -/
theorem c4_transport_rejection_witness :
    (runStep wStep none 10).succeeded = false ∧
    (runStep wStep none 10).responseStatusCode = none ∧
    (∀ (rest : List Step) (i : Nat) (acc : List StepData),
      ((fun _ => (none, 10) : StepOracle) i).1 = none →
      runTestLoop (fun _ => (none, 10)) (wStep :: rest) i acc =
        (acc ++ [runStep wStep none ((fun _ => (none, 10) : StepOracle) i).2], false)) ∧
    (∃ run, runTest [wStep] (fun _ => (none, 10)) = Except.ok run) :=
  c4_transport_rejection wStep 10 [wStep] (fun _ => (none, 10)) (by simp)

/-! ### Report averages: empty subsets and the truthiness quirk -/

theorem computeAvg_nil : computeAvg [] = JSNum.nan := rfl

/-- `orNA` never shows `NaN` as a number. -/
theorem orNA_ne_ms_nan (x : JSNum) : orNA x ≠ AvgField.ms JSNum.nan := by
  rw [orNA]
  by_cases h : x.truthy = true
  · rw [if_pos h]
    intro hcon
    cases hcon
    cases h
  · rw [if_neg h]
    intro hcon
    cases hcon

/-- C7: an empty success (resp. failure) partition is reported as the `N/A`
sentinel, and neither average field ever shows the division-by-zero value
`NaN` as a number. -/
theorem c7_empty_subset_na (results : List TestData) :
    (testsThatSucceeded results = [] → avgSuccessesField results = AvgField.na) ∧
    (testsThatFailed results = [] → avgFailuresField results = AvgField.na) ∧
    avgSuccessesField results ≠ AvgField.ms JSNum.nan ∧
    avgFailuresField results ≠ AvgField.ms JSNum.nan := by
  refine ⟨?_, ?_, orNA_ne_ms_nan _, orNA_ne_ms_nan _⟩
  · intro h
    rw [avgSuccessesField, h]
    rfl
  · intro h
    rw [avgFailuresField, h]
    rfl

/-- C7, witness: a collection with one failed run has no successes, so the
success average is the sentinel. -/
theorem c7_empty_subset_na_witness :
    avgSuccessesField [wRunFail] = AvgField.na :=
  (c7_empty_subset_na [wRunFail]).1 rfl

theorem foldl_add_zero (l : List JSNum) (h : ∀ x ∈ l, x = JSNum.num 0) :
    l.foldl JSNum.add (JSNum.num 0) = JSNum.num 0 := by
  induction l with
  | nil => rfl
  | cons a rest ih =>
      have ha : a = JSNum.num 0 := h a (List.mem_cons_self a rest)
      have : JSNum.add (JSNum.num 0) a = JSNum.num 0 := by
        rw [ha]
        show JSNum.num (0 + 0) = JSNum.num 0
        norm_num
      simp only [List.foldl_cons, this]
      exact ih (fun x hx => h x (List.mem_cons_of_mem a hx))

/-- The average of a non-empty list of zeros is the number `0`. -/
theorem computeAvg_zeros (l : List JSNum) (hne : l ≠ [])
    (h : ∀ x ∈ l, x = JSNum.num 0) : computeAvg l = JSNum.num 0 := by
  rw [computeAvg, foldl_add_zero l h]
  have hlen : (l.length : ℚ) ≠ 0 := by
    simp only [ne_eq, Nat.cast_eq_zero, List.length_eq_zero]
    exact hne
  rw [JSNum.div, if_neg hlen]
  norm_num

/-- C10: when every recorded step of a non-empty, all-succeeded collection
took 0 ms, the computed success average is the *number* 0, yet the report
shows `N/A` because `0` is falsy in the `x || 'N/A'` check (and likewise
for an all-failed collection and the failure average). -/
theorem c10_zero_avg_shown_na (results : List TestData) (hne : results ≠ [])
    (hsd : ∀ t ∈ results, t.stepsData ≠ [])
    (hz : ∀ t ∈ results, ∀ sd ∈ t.stepsData, sd.responseTime = 0) :
    ((∀ t ∈ results, t.succeeded = true) →
      computeAvgResponseTimeForTests (testsThatSucceeded results) = JSNum.num 0 ∧
      avgSuccessesField results = AvgField.na) ∧
    ((∀ t ∈ results, t.succeeded = false) →
      computeAvgResponseTimeForTests (testsThatFailed results) = JSNum.num 0 ∧
      avgFailuresField results = AvgField.na) := by
  have hrun : ∀ t ∈ results, computeAvgResponseTimeForTest t = JSNum.num 0 := by
    intro t ht
    rw [computeAvgResponseTimeForTest]
    refine computeAvg_zeros _ ?_ ?_
    · simp only [ne_eq, List.map_eq_nil_iff]
      exact hsd t ht
    · intro x hx
      obtain ⟨sd, hsdmem, hxeq⟩ := List.mem_map.mp hx
      rw [← hxeq, hz t ht sd hsdmem]
  constructor
  · intro hall
    have hfilter : testsThatSucceeded results = results := by
      rw [testsThatSucceeded]
      exact List.filter_eq_self.mpr (fun t ht => hall t ht)
    have havg : computeAvgResponseTimeForTests (testsThatSucceeded results) = JSNum.num 0 := by
      rw [hfilter, computeAvgResponseTimeForTests]
      refine computeAvg_zeros _ ?_ ?_
      · simp only [ne_eq, List.map_eq_nil_iff]
        exact hne
      · intro x hx
        obtain ⟨t, ht, hxeq⟩ := List.mem_map.mp hx
        rw [← hxeq]
        exact hrun t ht
    exact ⟨havg, by rw [avgSuccessesField, havg]; rfl⟩
  · intro hall
    have hfilter : testsThatFailed results = results := by
      rw [testsThatFailed]
      refine List.filter_eq_self.mpr (fun t ht => ?_)
      rw [hall t ht]
      rfl
    have havg : computeAvgResponseTimeForTests (testsThatFailed results) = JSNum.num 0 := by
      rw [hfilter, computeAvgResponseTimeForTests]
      refine computeAvg_zeros _ ?_ ?_
      · simp only [ne_eq, List.map_eq_nil_iff]
        exact hne
      · intro x hx
        obtain ⟨t, ht, hxeq⟩ := List.mem_map.mp hx
        rw [← hxeq]
        exact hrun t ht
    exact ⟨havg, by rw [avgFailuresField, havg]; rfl⟩

/-- A concrete succeeded run whose only step took 0 ms. -/
def wRunZero : TestData :=
  { id := "uid",
    stepsData := [runStep wStep (some { status := 200, data := some "b" }) 0],
    succeeded := true, error := none, repetition := none }

/-- C10, witness: one succeeded 0 ms run — the mean is the number 0 and the
report field is the sentinel. -/
theorem c10_zero_avg_shown_na_witness :
    computeAvgResponseTimeForTests (testsThatSucceeded [wRunZero]) = JSNum.num 0 ∧
    avgSuccessesField [wRunZero] = AvgField.na :=
  (c10_zero_avg_shown_na [wRunZero] (by simp)
    (by intro t ht; simp only [List.mem_singleton] at ht; subst ht; simp [wRunZero])
    (by
      intro t ht sd hsdm
      simp only [List.mem_singleton] at ht
      subst ht
      simp only [wRunZero, List.mem_singleton] at hsdm
      subst hsdm
      rfl)).1
    (by
      intro t ht
      simp only [List.mem_singleton] at ht
      subst ht
      rfl)

/-! ### Association-list lemmas for the JS-object model -/

theorem hasKey_iff {α : Type} (m : List (String × α)) (k : String) :
    hasKey m k = true ↔ ∃ p ∈ m, p.1 = k := by
  rw [hasKey, List.any_eq_true]
  simp

theorem hasKey_eq_isSome {α : Type} (m : List (String × α)) (k : String) :
    hasKey m k = (m.find? (fun p => p.1 = k)).isSome := by
  by_cases h : ∃ p ∈ m, p.1 = k
  · have h1 : hasKey m k = true := (hasKey_iff m k).mpr h
    have h2 : (m.find? (fun p => p.1 = k)).isSome = true :=
      List.find?_isSome.mpr (by simpa using h)
    rw [h1, h2]
  · have h1 : hasKey m k = false := by
      rw [Bool.eq_false_iff]
      intro hc
      exact h ((hasKey_iff m k).mp hc)
    have h2 : (m.find? (fun p => p.1 = k)).isSome = false := by
      rw [Bool.eq_false_iff]
      intro hc
      exact h (by simpa using List.find?_isSome.mp hc)
    rw [h1, h2]

theorem getD_cons {α : Type} (p : String × α) (rest : List (String × α))
    (j : String) (d : α) :
    getD (p :: rest) j d = if p.1 = j then p.2 else getD rest j d := by
  rw [getD, getD]
  by_cases h : p.1 = j
  · rw [List.find?_cons_of_pos _ (by simpa using h), if_pos h]
  · rw [List.find?_cons_of_neg _ (by simpa using h), if_neg h]

theorem getD_default_of_not_hasKey {α : Type} (m : List (String × α))
    (j : String) (d : α) (hj : hasKey m j = false) : getD m j d = d := by
  have heq := hasKey_eq_isSome m j
  rw [hj] at heq
  have hnone : m.find? (fun p => p.1 = j) = none :=
    Option.not_isSome_iff_eq_none.mp (by rw [← heq]; exact Bool.false_ne_true)
  rw [getD, hnone]

theorem getD_append_not_mem {α : Type} (m : List (String × α)) (k j : String)
    (v d : α) (hj : hasKey m j = false) :
    getD (m ++ [(k, v)]) j d = if k = j then v else d := by
  have heq := hasKey_eq_isSome m j
  rw [hj] at heq
  have hnone : m.find? (fun p => p.1 = j) = none :=
    Option.not_isSome_iff_eq_none.mp (by rw [← heq]; exact Bool.false_ne_true)
  rw [getD, List.find?_append, hnone, Option.none_or]
  by_cases h : k = j
  · rw [List.find?_cons_of_pos _ (by simpa using h), if_pos h]
  · rw [List.find?_cons_of_neg _ (by simpa using h), if_neg h]
    rfl

theorem getD_append_mem {α : Type} (m tail : List (String × α)) (j : String)
    (d : α) (hj : hasKey m j = true) :
    getD (m ++ tail) j d = getD m j d := by
  obtain ⟨p, hp, hpk⟩ := (hasKey_iff m j).mp hj
  have hsome : (m.find? (fun p => p.1 = j)).isSome = true :=
    List.find?_isSome.mpr ⟨p, hp, by simpa using hpk⟩
  obtain ⟨q, hq⟩ := Option.isSome_iff_exists.mp hsome
  rw [getD, getD, List.find?_append, hq]
  rfl

/-- The value map used by `bump` preserves keys. -/
theorem bump_fst (k : String) (p : String × Nat) :
    ((if p.1 = k then (p.1, p.2 + 1) else p) : String × Nat).1 = p.1 := by
  by_cases h : p.1 = k
  · rw [if_pos h]
  · rw [if_neg h]

theorem bump_keys (m : List (String × Nat)) (k : String) :
    (bump m k).map Prod.fst =
      if hasKey m k then m.map Prod.fst else m.map Prod.fst ++ [k] := by
  rw [bump]
  by_cases h : hasKey m k = true
  · rw [if_pos h, if_pos h, List.map_map]
    exact List.map_congr_left (fun p _ => bump_fst k p)
  · rw [if_neg h, if_neg h]
    simp

theorem bump_nodup (m : List (String × Nat)) (k : String)
    (hnd : (m.map Prod.fst).Nodup) : ((bump m k).map Prod.fst).Nodup := by
  rw [bump_keys]
  by_cases h : hasKey m k = true
  · rw [if_pos h]
    exact hnd
  · rw [if_neg h]
    have hk : k ∉ m.map Prod.fst := by
      intro hc
      obtain ⟨p, hp, hpk⟩ := List.mem_map.mp hc
      exact (Bool.eq_false_iff.mp (Bool.eq_false_iff.mpr h))
        ((hasKey_iff m k).mpr ⟨p, hp, hpk⟩)
    simp [List.nodup_append, hnd, hk]

/-- Reading any key after a `bump`: the bumped key gains one, others are
unchanged. -/
theorem getD_bump (m : List (String × Nat)) (k j : String) :
    getD (bump m k) j 0 = getD m j 0 + (if j = k then 1 else 0) := by
  rw [bump]
  by_cases h : hasKey m k = true
  · rw [if_pos h]
    have hpred : ((fun p => decide (p.1 = j)) ∘
        (fun p : String × Nat => if p.1 = k then (p.1, p.2 + 1) else p)) =
        (fun p : String × Nat => decide (p.1 = j)) := by
      funext p
      simp [Function.comp, bump_fst k p]
    have hfind : (m.map (fun p => if p.1 = k then (p.1, p.2 + 1) else p)).find?
        (fun p => p.1 = j) =
        (m.find? (fun p => p.1 = j)).map
          (fun p => if p.1 = k then (p.1, p.2 + 1) else p) := by
      rw [List.find?_map, hpred]
    cases hq : m.find? (fun p : String × Nat => decide (p.1 = j)) with
    | none =>
        have hj : j ≠ k := by
          intro hc
          subst hc
          have heq := hasKey_eq_isSome m j
          rw [h, hq] at heq
          cases heq
        rw [getD, hfind, hq, getD, hq, if_neg hj]
        rfl
    | some q =>
        have hqj : q.1 = j := by simpa using List.find?_some hq
        rw [getD, hfind, hq, getD, hq]
        simp only [Option.map_some]
        by_cases hjk : j = k
        · rw [if_pos hjk]
          show (if q.1 = k then (q.1, q.2 + 1) else q).2 = q.2 + 1
          rw [if_pos (hqj.trans hjk)]
        · rw [if_neg hjk]
          show (if q.1 = k then (q.1, q.2 + 1) else q).2 = q.2 + 0
          rw [if_neg (fun hc => hjk (hqj.symm.trans hc))]
          rfl
  · have hkf : hasKey m k = false := Bool.eq_false_iff.mpr h
    rw [if_neg h]
    by_cases hjk : j = k
    · subst hjk
      rw [getD_append_not_mem m j j 1 0 hkf, if_pos rfl,
        getD_default_of_not_hasKey m j 0 hkf]
    · rw [if_neg hjk, Nat.add_zero]
      by_cases hj : hasKey m j = true
      · exact getD_append_mem m [(k, 1)] j 0 hj
      · have hjf : hasKey m j = false := Bool.eq_false_iff.mpr hj
        rw [getD_append_not_mem m k j 1 0 hjf, if_neg (fun hc => hjk hc.symm),
          getD_default_of_not_hasKey m j 0 hjf]

theorem hasKey_cons {α : Type} (p : String × α) (rest : List (String × α))
    (k : String) : hasKey (p :: rest) k = (decide (p.1 = k) || hasKey rest k) := by
  simp [hasKey]

/-- A `bump` adds exactly one to the total count (keys assumed distinct, as
the tallies always are). -/
theorem bump_sum (m : List (String × Nat)) (k : String)
    (hnd : (m.map Prod.fst).Nodup) :
    ((bump m k).map Prod.snd).sum = (m.map Prod.snd).sum + 1 := by
  induction m with
  | nil => rfl
  | cons p rest ih =>
      have hnd' : (rest.map Prod.fst).Nodup := (List.nodup_cons.mp (by simpa using hnd)).2
      have hpnot : p.1 ∉ rest.map Prod.fst := (List.nodup_cons.mp (by simpa using hnd)).1
      by_cases hpk : p.1 = k
      · have hhk : hasKey (p :: rest) k = true := by
          rw [hasKey_cons]
          simp [hpk]
        rw [bump, if_pos hhk]
        have hrest : rest.map (fun q => if q.1 = k then (q.1, q.2 + 1) else q) = rest := by
          have hcongr : rest.map (fun q => if q.1 = k then (q.1, q.2 + 1) else q) =
              rest.map id := by
            refine List.map_congr_left (fun q hq => ?_)
            rw [if_neg ?_]
            · rfl
            · intro hc
              exact hpnot (by rw [hpk, ← hc]; exact List.mem_map_of_mem Prod.fst hq)
          rw [hcongr, List.map_id]
        simp only [List.map_cons, if_pos hpk, hrest, List.map_cons, List.sum_cons]
        omega
      · rw [bump, hasKey_cons]
        have hd : decide (p.1 = k) = false := by simp [hpk]
        rw [hd, Bool.false_or]
        by_cases hr : hasKey rest k = true
        · rw [if_pos hr]
          have := ih hnd'
          rw [bump, if_pos hr] at this
          simp only [List.map_cons, if_neg hpk, List.sum_cons, this]
          omega
        · have hrf : hasKey rest k = false := Bool.eq_false_iff.mpr hr
          rw [hrf]
          simp only [Bool.false_eq_true, if_false]
          simp [List.sum_append]
          omega

/-- The always-`true` predicate on the last recorded record of a run: does
its key (under `keyOf`) equal `j`?  Used to characterise the tallies. -/
def lastKeyIs (keyOf : StepData → String) (j : String) (t : TestData) : Bool :=
  match getStepDataWithError t with
  | some sd => keyOf sd = j
  | none => false

/-- Both failure tallies are instances of this fold. -/
def tallyLast (keyOf : StepData → String) (testsData : List TestData)
    (acc : List (String × Nat)) : Except String (List (String × Nat)) :=
  testsData.foldlM
    (fun acc testData =>
      match getStepDataWithError testData with
      | none => Except.error "TypeError: cannot read property of undefined"
      | some stepData => Except.ok (bump acc (keyOf stepData)))
    acc

theorem countResponseCodes_eq_tallyLast (testsData : List TestData) :
    countResponseCodes testsData =
      tallyLast (fun sd => statusCodeKey sd.responseStatusCode) testsData [] := rfl

theorem countErroredSteps_eq_tallyLast (testsData : List TestData) :
    countErroredSteps testsData =
      tallyLast (fun sd => sd.step.name) testsData [] := rfl

/-- Characterisation of the tally fold: when every run has a recorded step,
the fold resolves; the total count grows by one per run; and each key
counts exactly the runs whose last record carries that key. -/
theorem tallyLast_spec (keyOf : StepData → String) (testsData : List TestData)
    (h : ∀ t ∈ testsData, t.stepsData ≠ []) :
    ∀ acc : List (String × Nat), (acc.map Prod.fst).Nodup →
      ∃ m, tallyLast keyOf testsData acc = Except.ok m ∧
        (m.map Prod.fst).Nodup ∧
        (m.map Prod.snd).sum = (acc.map Prod.snd).sum + testsData.length ∧
        (∀ j, getD m j 0 = getD acc j 0 + testsData.countP (lastKeyIs keyOf j)) := by
  induction testsData with
  | nil =>
      intro acc hnd
      exact ⟨acc, rfl, hnd, by simp, by simp⟩
  | cons t rest ih =>
      intro acc hnd
      have hne : t.stepsData ≠ [] := h t (List.mem_cons_self t rest)
      have hlast : getStepDataWithError t =
          some (t.stepsData.getLast hne) := by
        rw [getStepDataWithError]
        exact List.getLast?_eq_getLast_of_ne_nil hne
      obtain ⟨m, hm, hmnd, hmsum, hmget⟩ :=
        ih (fun t' ht' => h t' (List.mem_cons_of_mem t ht'))
          (bump acc (keyOf (t.stepsData.getLast hne)))
          (bump_nodup acc _ hnd)
      refine ⟨m, ?_, hmnd, ?_, ?_⟩
      · rw [tallyLast, List.foldlM_cons, hlast]
        exact hm
      · rw [hmsum, bump_sum acc _ hnd, List.length_cons]
        omega
      · intro j
        rw [hmget j, getD_bump acc _ j, List.countP_cons]
        have hlk : lastKeyIs keyOf j t = (decide (keyOf (t.stepsData.getLast hne) = j)) := by
          rw [lastKeyIs, hlast]
        rw [hlk]
        by_cases hjk : j = keyOf (t.stepsData.getLast hne)
        · have hd : decide (keyOf (t.stepsData.getLast hne) = j) = true := by
            simp [hjk]
          rw [hd, if_pos hjk]
          have hone : (if true = true then 1 else 0) = 1 := rfl
          rw [hone]
          omega
        · have hd : decide (keyOf (t.stepsData.getLast hne) = j) = false := by
            simp only [decide_eq_false_iff_not]
            exact fun hc => hjk hc.symm
          rw [hd, if_neg hjk]
          have hzero : (if false = true then 1 else 0) = 0 := rfl
          rw [hzero]
          omega

theorem renderTally_eq (m : List (String × Nat)) :
    renderTally m =
      (if (List.insertionSort (fun a b => a ≤ b) (m.map Prod.fst)).foldl
          (fun acc k => acc ++ k ++ ": " ++ toString (getD m k 0) ++ "\n      ") "" = ""
        then "N/A"
        else (List.insertionSort (fun a b => a ≤ b) (m.map Prod.fst)).foldl
          (fun acc k => acc ++ k ++ ": " ++ toString (getD m k 0) ++ "\n      ") "") := rfl

/-- Each rendered line adds at least 9 characters, so the accumulated
message of a non-empty key list is long (in particular non-empty and
distinct from the 3-character literal `N/A`). -/
theorem renderFold_length (m : List (String × Nat)) :
    ∀ (ks : List String) (acc : String),
      acc.length ≤ (ks.foldl
        (fun acc k => acc ++ k ++ ": " ++ toString (getD m k 0) ++ "\n      ") acc).length ∧
      (ks ≠ [] → acc.length + 9 ≤ (ks.foldl
        (fun acc k => acc ++ k ++ ": " ++ toString (getD m k 0) ++ "\n      ") acc).length) := by
  intro ks
  induction ks with
  | nil =>
      intro acc
      exact ⟨Nat.le_refl _, fun h => absurd rfl h⟩
  | cons k rest ih =>
      intro acc
      simp only [List.foldl_cons]
      have hsep : (": " : String).length = 2 := rfl
      have hpad : ("\n      " : String).length = 7 := rfl
      have hstep : acc.length + 9 ≤
          (acc ++ k ++ ": " ++ toString (getD m k 0) ++ "\n      ").length := by
        simp only [String.length_append, hsep, hpad]
        omega
      obtain ⟨ih1, _⟩ := ih (acc ++ k ++ ": " ++ toString (getD m k 0) ++ "\n      ")
      refine ⟨le_trans (by omega) ih1, fun _ => le_trans hstep ih1⟩

/-- A tally renders as the literal `N/A` exactly when it is empty. -/
theorem renderTally_na_iff (m : List (String × Nat)) :
    renderTally m = "N/A" ↔ m = [] := by
  constructor
  · intro h
    by_contra hm
    have hkeys : (List.insertionSort (fun a b => a ≤ b) (m.map Prod.fst)) ≠ [] := by
      intro hc
      have hperm := List.perm_insertionSort (fun a b => a ≤ b) (m.map Prod.fst)
      rw [hc] at hperm
      have hlen := hperm.length_eq
      simp only [List.length_nil, List.length_map] at hlen
      exact hm (List.length_eq_zero.mp hlen.symm)
    have hfold := (renderFold_length m
      (List.insertionSort (fun a b => a ≤ b) (m.map Prod.fst)) "").2 hkeys
    rw [renderTally_eq] at h
    by_cases hmsg : (List.insertionSort (fun a b => a ≤ b) (m.map Prod.fst)).foldl
        (fun acc k => acc ++ k ++ ": " ++ toString (getD m k 0) ++ "\n      ") "" = ""
    · rw [hmsg] at hfold
      have : ("" : String).length = 0 := rfl
      omega
    · rw [if_neg hmsg] at h
      have h3 : ("N/A" : String).length = 3 := rfl
      have h0 : ("" : String).length = 0 := rfl
      rw [h] at hfold
      omega
  · intro h
    subst h
    rfl

/-- C6: over the failed subset of any collection whose failed runs each
have at least one recorded step, both failure tallies resolve; each failed
run contributes exactly one count — keyed by its last record's status code
(resp. step name) — so each per-key count is the number of failed runs
whose last record has that key, and the counts sum to the number of failed
runs; both reports render the tally (`N/A` exactly when there are no
failed runs), and the rendered key order is sorted. -/
theorem c6_failure_distributions (results : List TestData)
    (h : ∀ t ∈ testsThatFailed results, t.stepsData ≠ []) :
    ∃ codes stepsTally,
      countResponseCodes (testsThatFailed results) = Except.ok codes ∧
      countErroredSteps (testsThatFailed results) = Except.ok stepsTally ∧
      (codes.map Prod.snd).sum = (testsThatFailed results).length ∧
      (stepsTally.map Prod.snd).sum = (testsThatFailed results).length ∧
      (∀ j, getD codes j 0 = (testsThatFailed results).countP
        (lastKeyIs (fun sd => statusCodeKey sd.responseStatusCode) j)) ∧
      (∀ j, getD stepsTally j 0 = (testsThatFailed results).countP
        (lastKeyIs (fun sd => sd.step.name) j)) ∧
      generateDistributionReportForStatusCode (testsThatFailed results) =
        Except.ok (renderTally codes) ∧
      generateDistributionReportForErroredSteps (testsThatFailed results) =
        Except.ok (renderTally stepsTally) ∧
      (renderTally codes = "N/A" ↔ testsThatFailed results = []) ∧
      (renderTally stepsTally = "N/A" ↔ testsThatFailed results = []) ∧
      List.Sorted (fun a b => a ≤ b)
        (List.insertionSort (fun a b => a ≤ b) (codes.map Prod.fst)) ∧
      List.Sorted (fun a b => a ≤ b)
        (List.insertionSort (fun a b => a ≤ b) (stepsTally.map Prod.fst)) := by
  obtain ⟨codes, hc, _, hcsum, hcget⟩ :=
    tallyLast_spec (fun sd => statusCodeKey sd.responseStatusCode)
      (testsThatFailed results) h [] (by simp)
  obtain ⟨stepsTally, hs, _, hssum, hsget⟩ :=
    tallyLast_spec (fun sd => sd.step.name) (testsThatFailed results) h [] (by simp)
  have hcsum' : (codes.map Prod.snd).sum = (testsThatFailed results).length := by
    rw [hcsum]
    simp [getD]
  have hssum' : (stepsTally.map Prod.snd).sum = (testsThatFailed results).length := by
    rw [hssum]
    simp [getD]
  have hcok : countResponseCodes (testsThatFailed results) = Except.ok codes := by
    rw [countResponseCodes_eq_tallyLast]
    exact hc
  have hsok : countErroredSteps (testsThatFailed results) = Except.ok stepsTally := by
    rw [countErroredSteps_eq_tallyLast]
    exact hs
  have hcodes_nil : codes = [] ↔ testsThatFailed results = [] := by
    constructor
    · intro hm0
      rw [hm0] at hcsum'
      simp only [List.map_nil, List.sum_nil] at hcsum'
      exact List.length_eq_zero.mp hcsum'.symm
    · intro hres
      rw [hres] at hc
      exact (Except.ok.inj hc).symm
  have hsteps_nil : stepsTally = [] ↔ testsThatFailed results = [] := by
    constructor
    · intro hm0
      rw [hm0] at hssum'
      simp only [List.map_nil, List.sum_nil] at hssum'
      exact List.length_eq_zero.mp hssum'.symm
    · intro hres
      rw [hres] at hs
      exact (Except.ok.inj hs).symm
  refine ⟨codes, stepsTally, hcok, hsok, hcsum', hssum',
    fun j => by rw [hcget j]; simp [getD],
    fun j => by rw [hsget j]; simp [getD],
    ?_, ?_, ?_, ?_, List.sorted_insertionSort _ _, List.sorted_insertionSort _ _⟩
  · rw [generateDistributionReportForStatusCode, hcok]
  · rw [generateDistributionReportForErroredSteps, hsok]
  · rw [renderTally_na_iff]
    exact hcodes_nil
  · rw [renderTally_na_iff]
    exact hsteps_nil

/-- C6, witness: the concrete collection with a single failed run. -/
theorem c6_failure_distributions_witness :
    ∃ codes stepsTally,
      countResponseCodes (testsThatFailed [wRunFail]) = Except.ok codes ∧
      countErroredSteps (testsThatFailed [wRunFail]) = Except.ok stepsTally ∧
      (codes.map Prod.snd).sum = (testsThatFailed [wRunFail]).length ∧
      (stepsTally.map Prod.snd).sum = (testsThatFailed [wRunFail]).length ∧
      (∀ j, getD codes j 0 = (testsThatFailed [wRunFail]).countP
        (lastKeyIs (fun sd => statusCodeKey sd.responseStatusCode) j)) ∧
      (∀ j, getD stepsTally j 0 = (testsThatFailed [wRunFail]).countP
        (lastKeyIs (fun sd => sd.step.name) j)) ∧
      generateDistributionReportForStatusCode (testsThatFailed [wRunFail]) =
        Except.ok (renderTally codes) ∧
      generateDistributionReportForErroredSteps (testsThatFailed [wRunFail]) =
        Except.ok (renderTally stepsTally) ∧
      (renderTally codes = "N/A" ↔ testsThatFailed [wRunFail] = []) ∧
      (renderTally stepsTally = "N/A" ↔ testsThatFailed [wRunFail] = []) ∧
      List.Sorted (fun a b => a ≤ b)
        (List.insertionSort (fun a b => a ≤ b) (codes.map Prod.fst)) ∧
      List.Sorted (fun a b => a ≤ b)
        (List.insertionSort (fun a b => a ≤ b) (stepsTally.map Prod.fst)) :=
  c6_failure_distributions [wRunFail] (by
    intro t ht
    have : t = wRunFail := by
      simpa [testsThatFailed, wRunFail] using ht
    subst this
    simp [wRunFail])

/-! ### `setK` lemmas (for the per-step average objects) -/

theorem hasKey_iff_mem {α : Type} (m : List (String × α)) (k : String) :
    hasKey m k = true ↔ k ∈ m.map Prod.fst := by
  rw [hasKey_iff]
  constructor
  · rintro ⟨p, hp, hpk⟩
    exact hpk ▸ List.mem_map_of_mem Prod.fst hp
  · intro hk
    obtain ⟨p, hp, hpk⟩ := List.mem_map.mp hk
    exact ⟨p, hp, hpk⟩

theorem setK_fst {α : Type} (k : String) (v : α) (p : String × α) :
    ((if p.1 = k then (p.1, v) else p) : String × α).1 = p.1 := by
  by_cases h : p.1 = k
  · rw [if_pos h]
  · rw [if_neg h]

theorem find?_setK_map {α : Type} (m : List (String × α)) (k j : String) (v : α) :
    (m.map (fun p => if p.1 = k then (p.1, v) else p)).find? (fun p => p.1 = j) =
      (m.find? (fun p => p.1 = j)).map (fun p => if p.1 = k then (p.1, v) else p) := by
  have hpred : ((fun p => decide (p.1 = j)) ∘
      (fun p : String × α => if p.1 = k then (p.1, v) else p)) =
      (fun p : String × α => decide (p.1 = j)) := by
    funext p
    simp [Function.comp, setK_fst k v p]
  rw [List.find?_map, hpred]

theorem setK_keys {α : Type} (m : List (String × α)) (k : String) (v : α) :
    (setK m k v).map Prod.fst =
      if hasKey m k then m.map Prod.fst else m.map Prod.fst ++ [k] := by
  rw [setK]
  by_cases h : hasKey m k = true
  · rw [if_pos h, if_pos h, List.map_map]
    exact List.map_congr_left (fun p _ => setK_fst k v p)
  · rw [if_neg h, if_neg h]
    simp

theorem getD_setK_self {α : Type} (m : List (String × α)) (k : String) (v d : α) :
    getD (setK m k v) k d = v := by
  rw [setK]
  by_cases h : hasKey m k = true
  · rw [if_pos h]
    have hsome : (m.find? (fun p => p.1 = k)).isSome = true := by
      rw [← hasKey_eq_isSome]
      exact h
    obtain ⟨q, hq⟩ := Option.isSome_iff_exists.mp hsome
    have hqk : q.1 = k := by simpa using List.find?_some hq
    rw [getD, find?_setK_map, hq]
    show (if q.1 = k then (q.1, v) else q).2 = v
    rw [if_pos hqk]
  · rw [if_neg h]
    rw [getD_append_not_mem m k k v d (Bool.eq_false_iff.mpr h), if_pos rfl]

theorem getD_setK_ne {α : Type} (m : List (String × α)) (k j : String) (v d : α)
    (hj : j ≠ k) : getD (setK m k v) j d = getD m j d := by
  rw [setK]
  by_cases h : hasKey m k = true
  · rw [if_pos h, getD, find?_setK_map]
    cases hq : m.find? (fun p : String × α => decide (p.1 = j)) with
    | none =>
        rw [getD, hq]
        rfl
    | some q =>
        have hqj : q.1 = j := by simpa using List.find?_some hq
        rw [getD, hq]
        show (if q.1 = k then (q.1, v) else q).2 = q.2
        rw [if_neg (fun hc => hj (hqj.symm.trans hc))]
  · rw [if_neg h]
    by_cases hjm : hasKey m j = true
    · exact getD_append_mem m [(k, v)] j d hjm
    · have hjf : hasKey m j = false := Bool.eq_false_iff.mpr hjm
      rw [getD_append_not_mem m k j v d hjf, if_neg (fun hc => hj hc.symm),
        getD_default_of_not_hasKey m j d hjf]

/-! ### Characterisation of the per-step averages -/

/-- How many runs contain a `StepData` for the given step name. -/
def runsContaining (testsData : List TestData) (stepName : String) : Nat :=
  testsData.countP (fun t => (findStepData t stepName).isSome)

/-- Total elapsed time of the (first) `StepData` for the given step name,
over the runs that contain one. -/
def totalTimeFor (testsData : List TestData) (stepName : String) : ℚ :=
  (testsData.filterMap
    (fun t => (findStepData t stepName).map (fun sd => sd.responseTime))).sum

theorem getD_append_single_ne {α : Type} (m : List (String × α)) (k j : String)
    (z : α) (d : α) (hj : j ≠ k) : getD (m ++ [(k, z)]) j d = getD m j d := by
  by_cases h : hasKey m j = true
  · exact getD_append_mem m [(k, z)] j d h
  · have hjf : hasKey m j = false := Bool.eq_false_iff.mpr h
    rw [getD_append_not_mem m k j z d hjf, if_neg (fun hc => hj hc.symm),
      getD_default_of_not_hasKey m j d hjf]

theorem hasKey_append_single_self {α : Type} (m : List (String × α))
    (k : String) (z : α) : hasKey (m ++ [(k, z)]) k = true := by
  rw [hasKey_iff_mem]
  simp

theorem getD_append_single_self {α : Type} (m : List (String × α)) (k : String)
    (z d : α) (hf : hasKey m k = false) : getD (m ++ [(k, z)]) k d = z := by
  rw [getD_append_not_mem m k k z d hf, if_pos rfl]

theorem processRunsForName_cons_some (t : TestData) (rest : List TestData)
    (S : String) (sd : StepData) (ex : List (String × Nat))
    (tot : List (String × ℚ)) (hfind : findStepData t S = some sd) :
    processRunsForName (t :: rest) S (ex, tot) =
      processRunsForName rest S
        (setK ex S (getD ex S 0 + 1), setK tot S (getD tot S 0 + sd.responseTime)) := by
  simp only [processRunsForName, List.foldl_cons, hfind]

theorem processRunsForName_cons_none (t : TestData) (rest : List TestData)
    (S : String) (ex : List (String × Nat)) (tot : List (String × ℚ))
    (hfind : findStepData t S = none) :
    processRunsForName (t :: rest) S (ex, tot) =
      processRunsForName rest S (ex, tot) := by
  simp only [processRunsForName, List.foldl_cons, hfind]

/-- Effect of the inner `testsData.forEach` on the two counter objects, for
a name both objects already carry: its own counters accumulate the number
of and total time over runs containing the name, keys are unchanged and so
is every other name's counter. -/
theorem processRunsForName_spec (testsData : List TestData) (S : String) :
    ∀ (ex : List (String × Nat)) (tot : List (String × ℚ)),
      hasKey ex S = true → hasKey tot S = true →
      ((processRunsForName testsData S (ex, tot)).1.map Prod.fst = ex.map Prod.fst ∧
       (processRunsForName testsData S (ex, tot)).2.map Prod.fst = tot.map Prod.fst) ∧
      getD (processRunsForName testsData S (ex, tot)).1 S 0 =
        getD ex S 0 + runsContaining testsData S ∧
      getD (processRunsForName testsData S (ex, tot)).2 S 0 =
        getD tot S 0 + totalTimeFor testsData S ∧
      (∀ j, j ≠ S →
        getD (processRunsForName testsData S (ex, tot)).1 j 0 = getD ex j 0 ∧
        getD (processRunsForName testsData S (ex, tot)).2 j 0 = getD tot j 0) := by
  induction testsData with
  | nil =>
      intro ex tot hex htot
      have hnil : processRunsForName ([] : List TestData) S (ex, tot) = (ex, tot) := rfl
      rw [hnil]
      refine ⟨⟨rfl, rfl⟩, ?_, ?_, fun j hj => ⟨rfl, rfl⟩⟩
      · rw [runsContaining]
        simp
      · rw [totalTimeFor]
        simp
  | cons t rest ih =>
      intro ex tot hex htot
      have hrc : runsContaining (t :: rest) S =
          runsContaining rest S +
            (if (findStepData t S).isSome then 1 else 0) := by
        rw [runsContaining, runsContaining, List.countP_cons]
      cases hfind : findStepData t S with
      | some sd =>
          rw [processRunsForName_cons_some t rest S sd ex tot hfind]
          have hkeep1 : hasKey (setK ex S (getD ex S 0 + 1)) S = true := by
            rw [hasKey_iff_mem, setK_keys, if_pos hex]
            exact (hasKey_iff_mem ex S).mp hex
          have hkeep2 : hasKey (setK tot S (getD tot S 0 + sd.responseTime)) S = true := by
            rw [hasKey_iff_mem, setK_keys, if_pos htot]
            exact (hasKey_iff_mem tot S).mp htot
          obtain ⟨⟨hk1, hk2⟩, hv1, hv2, hoth⟩ := ih _ _ hkeep1 hkeep2
          have hfm : Option.map (fun sd => sd.responseTime) (findStepData t S) =
              some sd.responseTime := by
            rw [hfind]
            rfl
          have htt : totalTimeFor (t :: rest) S =
              sd.responseTime + totalTimeFor rest S := by
            rw [totalTimeFor, totalTimeFor,
              @List.filterMap_cons_some TestData ℚ
                (fun tr => Option.map (fun sd => sd.responseTime) (findStepData tr S))
                t rest sd.responseTime hfm]
            rw [List.sum_cons]
          refine ⟨⟨?_, ?_⟩, ?_, ?_, ?_⟩
          · rw [hk1, setK_keys, if_pos hex]
          · rw [hk2, setK_keys, if_pos htot]
          · rw [hv1, getD_setK_self, hrc, hfind]
            have hone : (if (some sd : Option StepData).isSome = true then 1 else 0) = 1 := rfl
            rw [hone]
            omega
          · rw [hv2, getD_setK_self, htt]
            ring
          · intro j hj
            obtain ⟨ho1, ho2⟩ := hoth j hj
            rw [ho1, ho2, getD_setK_ne ex S j _ 0 hj, getD_setK_ne tot S j _ 0 hj]
            exact ⟨rfl, rfl⟩
      | none =>
          rw [processRunsForName_cons_none t rest S ex tot hfind]
          obtain ⟨⟨hk1, hk2⟩, hv1, hv2, hoth⟩ := ih ex tot hex htot
          have hfm : Option.map (fun sd => sd.responseTime) (findStepData t S) =
              (none : Option ℚ) := by
            rw [hfind]
            rfl
          have htt : totalTimeFor (t :: rest) S = totalTimeFor rest S := by
            rw [totalTimeFor, totalTimeFor,
              @List.filterMap_cons_none TestData ℚ
                (fun tr => Option.map (fun sd => sd.responseTime) (findStepData tr S))
                t rest hfm]
          refine ⟨⟨hk1, hk2⟩, ?_, ?_, hoth⟩
          · rw [hv1, hrc, hfind]
            simp
          · rw [hv2, htt]

theorem initThenProcess_fresh (testsData : List TestData)
    (ex : List (String × Nat)) (tot : List (String × ℚ)) (S : String)
    (hex : hasKey ex S = false) (htot : hasKey tot S = false) :
    initThenProcess testsData (ex, tot) S =
      processRunsForName testsData S (ex ++ [(S, 0)], tot ++ [(S, 0)]) := by
  rw [initThenProcess]
  have h1 : (if hasKey ex S then ex else ex ++ [(S, 0)]) = ex ++ [(S, 0)] := by
    rw [hex]
    rfl
  have h2 : (if hasKey tot S then tot else tot ++ [(S, 0)]) = tot ++ [(S, 0)] := by
    rw [htot]
    rfl
  rw [h1, h2]

/-- Characterisation of the full `stepNames.forEach` fold: over a list of
fresh, pairwise-distinct names, each name ends up with exactly the count
of runs containing it and their total time. -/
theorem initProcessFold_spec (testsData : List TestData) :
    ∀ (L : List String) (ex : List (String × Nat)) (tot : List (String × ℚ)),
      L.Nodup →
      ex.map Prod.fst = tot.map Prod.fst →
      (∀ S ∈ L, hasKey ex S = false) →
      ((L.foldl (initThenProcess testsData) (ex, tot)).1.map Prod.fst =
          ex.map Prod.fst ++ L ∧
       (L.foldl (initThenProcess testsData) (ex, tot)).2.map Prod.fst =
          tot.map Prod.fst ++ L) ∧
      (∀ j, j ∉ L →
        getD (L.foldl (initThenProcess testsData) (ex, tot)).1 j 0 = getD ex j 0 ∧
        getD (L.foldl (initThenProcess testsData) (ex, tot)).2 j 0 = getD tot j 0) ∧
      (∀ S ∈ L,
        getD (L.foldl (initThenProcess testsData) (ex, tot)).1 S 0 =
          runsContaining testsData S ∧
        getD (L.foldl (initThenProcess testsData) (ex, tot)).2 S 0 =
          totalTimeFor testsData S) := by
  intro L
  induction L with
  | nil =>
      intro ex tot _ hkeq _
      exact ⟨⟨by simp, by simp⟩, fun j _ => ⟨rfl, rfl⟩, fun S hS => absurd hS (by simp)⟩
  | cons S0 rest ih =>
      intro ex tot hnd hkeq hfresh
      have hndr : rest.Nodup := (List.nodup_cons.mp hnd).2
      have hS0r : S0 ∉ rest := (List.nodup_cons.mp hnd).1
      have hexS0 : hasKey ex S0 = false := hfresh S0 (List.mem_cons_self S0 rest)
      have htotS0 : hasKey tot S0 = false := by
        rw [Bool.eq_false_iff]
        intro hc
        have := (hasKey_iff_mem tot S0).mp hc
        rw [← hkeq] at this
        exact absurd ((hasKey_iff_mem ex S0).mpr this) (by rw [hexS0]; simp)
      have hstep : (S0 :: rest).foldl (initThenProcess testsData) (ex, tot) =
          rest.foldl (initThenProcess testsData)
            (processRunsForName testsData S0 (ex ++ [(S0, 0)], tot ++ [(S0, 0)])) := by
        rw [List.foldl_cons, initThenProcess_fresh testsData ex tot S0 hexS0 htotS0]
      set P := processRunsForName testsData S0 (ex ++ [(S0, 0)], tot ++ [(S0, 0)]) with hP
      have hkey1 : hasKey (ex ++ [(S0, 0)]) S0 = true := hasKey_append_single_self ex S0 0
      have hkey2 : hasKey (tot ++ [(S0, 0)]) S0 = true := hasKey_append_single_self tot S0 0
      obtain ⟨⟨hpk1, hpk2⟩, hpv1, hpv2, hpoth⟩ :=
        processRunsForName_spec testsData S0 (ex ++ [(S0, 0)]) (tot ++ [(S0, 0)]) hkey1 hkey2
      have hpkeys1 : P.1.map Prod.fst = ex.map Prod.fst ++ [S0] := by
        rw [← hP] at hpk1
        rw [hpk1]
        simp
      have hpkeys2 : P.2.map Prod.fst = tot.map Prod.fst ++ [S0] := by
        rw [← hP] at hpk2
        rw [hpk2]
        simp
      have hfreshP : ∀ S ∈ rest, hasKey P.1 S = false := by
        intro S hS
        rw [Bool.eq_false_iff]
        intro hc
        have hmem := (hasKey_iff_mem P.1 S).mp hc
        rw [hpkeys1] at hmem
        rcases List.mem_append.mp hmem with hmem | hmem
        · exact absurd ((hasKey_iff_mem ex S).mpr hmem)
            (by rw [hfresh S (List.mem_cons_of_mem S0 hS)]; simp)
        · exact hS0r (by simpa using (List.mem_singleton.mp hmem) ▸ hS)
      obtain ⟨⟨hk1, hk2⟩, hpres, hvals⟩ :=
        ih P.1 P.2 hndr (by rw [hpkeys1, hpkeys2, hkeq]) hfreshP
      have hfold : rest.foldl (initThenProcess testsData) (P.1, P.2) =
          rest.foldl (initThenProcess testsData) P := by
        rfl
      rw [hfold] at hk1 hk2 hpres hvals
      refine ⟨⟨?_, ?_⟩, ?_, ?_⟩
      · rw [hstep, hk1, hpkeys1]
        simp
      · rw [hstep, hk2, hpkeys2]
        simp
      · intro j hj
        have hjr : j ∉ rest := fun hc => hj (List.mem_cons_of_mem S0 hc)
        have hjS0 : j ≠ S0 := fun hc => hj (hc ▸ List.mem_cons_self S0 rest)
        obtain ⟨h1, h2⟩ := hpres j hjr
        obtain ⟨h3, h4⟩ := hpoth j hjS0
        rw [hstep, h1, h2, hP, h3, h4, getD_append_single_ne ex S0 j 0 0 hjS0,
          getD_append_single_ne tot S0 j 0 0 hjS0]
        exact ⟨rfl, rfl⟩
      · intro S hS
        rcases List.mem_cons.mp hS with hSeq | hSr
        · subst hSeq
          obtain ⟨h1, h2⟩ := hpres S hS0r
          rw [hstep, h1, h2, hP]
          rw [hpv1, hpv2, getD_append_single_self ex S 0 0 hexS0,
            getD_append_single_self tot S 0 0 htotS0]
          constructor
          · omega
          · ring
        · obtain ⟨h1, h2⟩ := hvals S hSr
          rw [hstep, h1, h2]
          exact ⟨rfl, rfl⟩

/-- Characterisation of the final `stepNames.reduce` that assembles the
result object from a value function. -/
theorem buildFold_spec (f : String → JSNum) :
    ∀ (L : List String) (acc : List (String × JSNum)),
      L.Nodup → (∀ S ∈ L, hasKey acc S = false) →
      ((L.foldl (fun acc S => setK acc S (f S)) acc).map Prod.fst =
          acc.map Prod.fst ++ L) ∧
      (∀ j, j ∉ L →
        getD (L.foldl (fun acc S => setK acc S (f S)) acc) j JSNum.nan =
          getD acc j JSNum.nan) ∧
      (∀ S ∈ L,
        getD (L.foldl (fun acc S => setK acc S (f S)) acc) S JSNum.nan = f S) := by
  intro L
  induction L with
  | nil =>
      intro acc _ _
      exact ⟨by simp, fun j _ => rfl, fun S hS => absurd hS (by simp)⟩
  | cons S0 rest ih =>
      intro acc hnd hfresh
      have hndr : rest.Nodup := (List.nodup_cons.mp hnd).2
      have hS0r : S0 ∉ rest := (List.nodup_cons.mp hnd).1
      have haccS0 : hasKey acc S0 = false := hfresh S0 (List.mem_cons_self S0 rest)
      have hkeys : (setK acc S0 (f S0)).map Prod.fst = acc.map Prod.fst ++ [S0] := by
        rw [setK_keys, if_neg (by rw [haccS0]; simp)]
      have hfresh' : ∀ S ∈ rest, hasKey (setK acc S0 (f S0)) S = false := by
        intro S hS
        rw [Bool.eq_false_iff]
        intro hc
        have hmem := (hasKey_iff_mem _ S).mp hc
        rw [hkeys] at hmem
        rcases List.mem_append.mp hmem with hmem | hmem
        · exact absurd ((hasKey_iff_mem acc S).mpr hmem)
            (by rw [hfresh S (List.mem_cons_of_mem S0 hS)]; simp)
        · exact hS0r ((List.mem_singleton.mp hmem) ▸ hS)
      obtain ⟨hk, hpres, hvals⟩ := ih (setK acc S0 (f S0)) hndr hfresh'
      refine ⟨?_, ?_, ?_⟩
      · rw [List.foldl_cons, hk, hkeys]
        simp
      · intro j hj
        have hjr : j ∉ rest := fun hc => hj (List.mem_cons_of_mem S0 hc)
        have hjS0 : j ≠ S0 := fun hc => hj (hc ▸ List.mem_cons_self S0 rest)
        rw [List.foldl_cons, hpres j hjr, getD_setK_ne acc S0 j (f S0) JSNum.nan hjS0]
      · intro S hS
        rcases List.mem_cons.mp hS with hSeq | hSr
        · subst hSeq
          rw [List.foldl_cons, hpres S hS0r, getD_setK_self acc S (f S) JSNum.nan]
        · rw [List.foldl_cons, hvals S hSr]

/-- The value the final reduce assigns to one step name:
`totalTimeOnStep[stepName] / executionsOfStep[stepName]`. -/
def perStepValue (testsData : List TestData) (stepNames : List String)
    (S : String) : JSNum :=
  JSNum.div
    (JSNum.num (getD (stepNames.foldl (initThenProcess testsData) ([], [])).2 S 0))
    (JSNum.num ((getD (stepNames.foldl (initThenProcess testsData) ([], [])).1 S 0 : Nat) : ℚ))

/-- C5: on a non-empty collection whose runs have pairwise-distinct step
names, the per-step report has exactly the first run's step names as keys,
and the value for each such name `S` is the mean elapsed time over exactly
the runs that contain a `StepData` named `S` (runs that aborted before `S`
contribute nothing). -/
theorem c5_per_step_average (testsData : List TestData) (first : TestData)
    (rest : List TestData) (heq : testsData = first :: rest)
    (hnd : ∀ t ∈ testsData, (t.stepsData.map (fun sd => sd.step.name)).Nodup) :
    ∃ result, computeAvgResponseTimeForEachStep testsData = Except.ok result ∧
      result.map Prod.fst = first.stepsData.map (fun sd => sd.step.name) ∧
      ∀ S ∈ first.stepsData.map (fun sd => sd.step.name),
        0 < runsContaining testsData S ∧
        getD result S JSNum.nan =
          JSNum.num (totalTimeFor testsData S / (runsContaining testsData S : ℚ)) := by
  subst heq
  have hndfirst : (first.stepsData.map (fun sd => sd.step.name)).Nodup :=
    hnd first (List.mem_cons_self first rest)
  obtain ⟨⟨hmk1, hmk2⟩, hmpres, hmv⟩ :=
    initProcessFold_spec (first :: rest) (first.stepsData.map (fun sd => sd.step.name))
      [] [] hndfirst rfl (fun S _ => rfl)
  obtain ⟨hbk, hbpres, hbv⟩ :=
    buildFold_spec
      (perStepValue (first :: rest) (first.stepsData.map (fun sd => sd.step.name)))
      (first.stepsData.map (fun sd => sd.step.name)) [] hndfirst (fun S _ => rfl)
  refine ⟨(first.stepsData.map (fun sd => sd.step.name)).foldl
    (fun acc S => setK acc S
      (perStepValue (first :: rest) (first.stepsData.map (fun sd => sd.step.name)) S))
    [], ?_, ?_, ?_⟩
  · rfl
  · exact hbk
  · intro S hS
    have hrc : 0 < runsContaining (first :: rest) S := by
      obtain ⟨sd, hsd, hname⟩ := List.mem_map.mp hS
      have hfs : (findStepData first S).isSome = true := by
        rw [findStepData]
        exact List.find?_isSome.mpr ⟨sd, hsd, by simpa using hname⟩
      rw [runsContaining]
      exact List.countP_pos_iff.mpr ⟨first, List.mem_cons_self first rest, hfs⟩
    refine ⟨hrc, ?_⟩
    have hb := hbv S hS
    obtain ⟨hm1, hm2⟩ := hmv S hS
    rw [hb, perStepValue, hm1, hm2]
    have hne : ((runsContaining (first :: rest) S : Nat) : ℚ) ≠ 0 := by
      rw [Nat.cast_ne_zero]
      omega
    rw [JSNum.div]
    rw [if_neg hne]

/-- A step named `a` expecting 200. -/
def wStepA : Step := { wStep with name := "a" }

/-- A step named `b` expecting 201. -/
def wStepB : Step := { wStep with name := "b", expectedResponseCode := 201 }

/-- A succeeded run through `a` (10 ms) and `b` (20 ms). -/
def wRunAB : TestData :=
  { id := "uid",
    stepsData := [runStep wStepA (some { status := 200, data := some "b" }) 10,
      runStep wStepB (some { status := 201, data := some "b" }) 20],
    succeeded := true, error := none, repetition := none }

/-- A run that only recorded `a` (30 ms). -/
def wRunA : TestData :=
  { id := "uid",
    stepsData := [runStep wStepA (some { status := 200, data := some "b" }) 30],
    succeeded := true, error := none, repetition := none }

/-- C5, witness: a two-step first run (`a` in 10 ms, `b` in 20 ms) and a
second run that only reached `a` (30 ms): `a` averages 20 ms over both
runs, `b` averages 20 ms over the first run only. -/
theorem c5_per_step_average_witness :
    ∃ result, computeAvgResponseTimeForEachStep [wRunAB, wRunA] = Except.ok result ∧
      result.map Prod.fst = wRunAB.stepsData.map (fun sd => sd.step.name) ∧
      ∀ S ∈ wRunAB.stepsData.map (fun sd => sd.step.name),
        0 < runsContaining [wRunAB, wRunA] S ∧
        getD result S JSNum.nan =
          JSNum.num (totalTimeFor [wRunAB, wRunA] S /
            (runsContaining [wRunAB, wRunA] S : ℚ)) :=
  c5_per_step_average [wRunAB, wRunA] wRunAB [wRunA] rfl (by
    intro t ht
    rcases List.mem_cons.mp ht with h | h
    · subst h
      simp [wRunAB, wStepA, wStepB, wStep, runStep, assertStatusCode, applyUserAssertions]
    · have h' : t = wRunA := by simpa using h
      subst h'
      simp [wRunA, wStepA, wStep, runStep, assertStatusCode, applyUserAssertions])

/-! ### The wave scheduler -/

/-- With at least one registered step, a virtual user's promise always
resolves. -/
theorem runTest_isOk (steps : List Step) (oracle : StepOracle)
    (hne : steps ≠ []) : ∃ run, runTest steps oracle = Except.ok run := by
  have hlen : ¬ steps.length < 1 := by
    have := List.length_pos.mpr hne
    omega
  rw [runTest, if_neg hlen]
  exact ⟨_, rfl⟩

theorem promiseAll_cons_ok {α : Type} (a : α) (l : List (Except String α)) :
    promiseAll (Except.ok a :: l) =
      match promiseAll l with
      | Except.error e => Except.error e
      | Except.ok as => Except.ok (a :: as) := rfl

theorem promiseAll_map_ok {α β : Type} (f : β → Except String α) :
    ∀ l : List β, (∀ b ∈ l, ∃ a, f b = Except.ok a) →
      ∃ xs, promiseAll (l.map f) = Except.ok xs ∧ xs.length = l.length := by
  intro l
  induction l with
  | nil => exact fun _ => ⟨[], rfl, rfl⟩
  | cons b rest ih =>
      intro h
      obtain ⟨a, ha⟩ := h b (List.mem_cons_self b rest)
      obtain ⟨xs, hxs, hlen⟩ := ih (fun b' hb' => h b' (List.mem_cons_of_mem b hb'))
      refine ⟨a :: xs, ?_, by simpa using hlen⟩
      rw [List.map_cons, ha, promiseAll_cons_ok, hxs]

theorem flatten_length_const {α : Type} (c : Nat) :
    ∀ waves : List (List α), (∀ w ∈ waves, w.length = c) →
      waves.flatten.length = waves.length * c := by
  intro waves
  induction waves with
  | nil => intro _; simp
  | cons w rest ih =>
      intro h
      rw [List.flatten_cons, List.length_append, h w (List.mem_cons_self w rest),
        ih (fun w' hw' => h w' (List.mem_cons_of_mem w hw')), List.length_cons]
      ring

/-- The recursion of `runLoadTest`, characterised: starting at any
repetition `cur ≥ 1` with `n = numOfRepetitions + 1 - cur` waves left, it
resolves with the accumulator extended by `n` waves of `numOfThreads`
stamped runs each, waves in repetition order. -/
theorem runLoadTest_spec (steps : List Step) (oracle : SuiteOracle)
    (numOfThreads numOfRepetitions maxTimeBeforeStartingInMs : Int)
    (h1 : 1 ≤ numOfThreads) (h2 : 1 ≤ numOfRepetitions)
    (h3 : 0 ≤ maxTimeBeforeStartingInMs) (hsteps : steps ≠ []) :
    ∀ (n : Nat) (currentRepetition : Int) (acc : List TestData),
      1 ≤ currentRepetition →
      (numOfRepetitions + 1 - currentRepetition).toNat = n →
      ∃ waves : List (List TestData),
        runLoadTest steps oracle numOfThreads numOfRepetitions
          maxTimeBeforeStartingInMs currentRepetition acc =
          Except.ok (acc ++ waves.flatten) ∧
        waves.length = n ∧
        (∀ w ∈ waves, w.length = numOfThreads.toNat) ∧
        (∀ i w, waves.get? i = some w →
          ∀ t ∈ w, t.repetition = some (currentRepetition + i)) := by
  intro n
  induction n with
  | zero =>
      intro cur acc hcur hn
      have hgt : cur > numOfRepetitions := by omega
      refine ⟨[], ?_, rfl, fun w hw => absurd hw (by simp), fun i w hw => by simp at hw⟩
      rw [runLoadTest, if_neg (by omega), if_neg (by omega), if_neg (by omega),
        dif_pos hgt]
      simp
  | succ n ihn =>
      intro cur acc hcur hn
      have hle : ¬ cur > numOfRepetitions := by omega
      obtain ⟨ws, hws, hwslen⟩ :=
        promiseAll_map_ok (fun t => runTest steps (oracle cur t))
          (List.range numOfThreads.toNat)
          (fun t _ => runTest_isOk steps (oracle cur t) hsteps)
      obtain ⟨waves, hrec, hlen, hwlen, hstamp⟩ :=
        ihn (cur + 1) (acc ++ addFieldRepetition ws cur) (by omega) (by omega)
      refine ⟨addFieldRepetition ws cur :: waves, ?_, ?_, ?_, ?_⟩
      · rw [runLoadTest, if_neg (by omega), if_neg (by omega), if_neg (by omega),
          dif_neg hle]
        have hwave : runWave steps (oracle cur) numOfThreads =
            (List.range numOfThreads.toNat).map (fun t => runTest steps (oracle cur t)) := rfl
        rw [hwave, hws]
        show runLoadTest steps oracle numOfThreads numOfRepetitions
            maxTimeBeforeStartingInMs (cur + 1) (acc ++ addFieldRepetition ws cur) =
          Except.ok (acc ++ (addFieldRepetition ws cur :: waves).flatten)
        rw [hrec, List.flatten_cons, ← List.append_assoc]
      · rw [List.length_cons, hlen]
      · intro w hw
        rcases List.mem_cons.mp hw with hw | hw
        · subst hw
          rw [addFieldRepetition, List.length_map, hwslen, List.length_range]
        · exact hwlen w hw
      · intro i w hw
        cases i with
        | zero =>
            simp only [List.get?_cons_zero] at hw
            cases hw
            intro t ht
            obtain ⟨t0, _, ht0⟩ := List.mem_map.mp ht
            rw [← ht0]
            simp
        | succ i =>
            simp only [List.get?_cons_succ] at hw
            intro t ht
            have := hstamp i w hw t ht
            rw [this]
            congr 1
            push_cast
            ring

/-- C1: with a valid config and at least one registered step, `runLoadTest`
resolves with exactly `numOfThreads × numOfRepetitions` runs, accumulated
as `numOfRepetitions` sequential waves of `numOfThreads` runs each, wave
`k` stamped with repetition index `k`. -/
theorem c1_run_count (steps : List Step) (oracle : SuiteOracle)
    (numOfThreads numOfRepetitions maxTimeBeforeStartingInMs : Int)
    (h1 : 1 ≤ numOfThreads) (h2 : 1 ≤ numOfRepetitions)
    (h3 : 0 ≤ maxTimeBeforeStartingInMs) (hsteps : steps ≠ []) :
    ∃ (l : List TestData) (waves : List (List TestData)),
      runLoadTest steps oracle numOfThreads numOfRepetitions
        maxTimeBeforeStartingInMs 1 [] = Except.ok l ∧
      l.length = numOfThreads.toNat * numOfRepetitions.toNat ∧
      l = waves.flatten ∧
      waves.length = numOfRepetitions.toNat ∧
      (∀ w ∈ waves, w.length = numOfThreads.toNat) ∧
      (∀ i w, waves.get? i = some w → ∀ t ∈ w, t.repetition = some (1 + (i : Int))) := by
  obtain ⟨waves, hrun, hlen, hwlen, hstamp⟩ :=
    runLoadTest_spec steps oracle numOfThreads numOfRepetitions
      maxTimeBeforeStartingInMs h1 h2 h3 hsteps
      numOfRepetitions.toNat 1 [] (by omega) (by omega)
  refine ⟨waves.flatten, waves, by simpa using hrun, ?_, rfl, hlen, hwlen, hstamp⟩
  rw [flatten_length_const numOfThreads.toNat waves hwlen, hlen]
  ring

/-- C1, witness: one step, 3 threads, 2 repetitions. -/
theorem c1_run_count_witness :
    ∃ (l : List TestData) (waves : List (List TestData)),
      runLoadTest [wStep] (fun _ _ => wOracle200) 3 2 0 1 [] = Except.ok l ∧
      l.length = (3 : Int).toNat * (2 : Int).toNat ∧
      l = waves.flatten ∧
      waves.length = (2 : Int).toNat ∧
      (∀ w ∈ waves, w.length = (3 : Int).toNat) ∧
      (∀ i w, waves.get? i = some w → ∀ t ∈ w, t.repetition = some (1 + (i : Int))) :=
  c1_run_count [wStep] (fun _ _ => wOracle200) 3 2 0 (by norm_num) (by norm_num)
    (by norm_num) (by simp)

/-! ### Temporal structure of a virtual user's chain -/

theorem eventsLoop_nil (oracle : StepOracle) (i : Nat) :
    runTestEventsLoop oracle [] i = [] := rfl

theorem eventsLoop_cons (oracle : StepOracle) (step : Step) (rest : List Step)
    (i : Nat) :
    runTestEventsLoop oracle (step :: rest) i =
      (if (runStep step (oracle i).1 (oracle i).2).succeeded then
        Event.execStep i true :: Event.sleepAfter i step.sleepBeforeNextStepInMs ::
          runTestEventsLoop oracle rest (i + 1)
      else [Event.execStep i false]) := rfl

theorem eventsLoop_key_lb (oracle : StepOracle) :
    ∀ (steps : List Step) (i : Nat) (e : Event),
      e ∈ runTestEventsLoop oracle steps i → 2 * i ≤ evKey e := by
  intro steps
  induction steps with
  | nil => intro i e he; rw [eventsLoop_nil] at he; cases he
  | cons step rest ih =>
      intro i e he
      rw [eventsLoop_cons] at he
      by_cases hsd : (runStep step (oracle i).1 (oracle i).2).succeeded = true
      · rw [if_pos hsd] at he
        rcases List.mem_cons.mp he with he | he
        · rw [he, evKey]
        · rcases List.mem_cons.mp he with he | he
          · rw [he, evKey]
            omega
          · have := ih (i + 1) e he
            omega
      · rw [if_neg hsd] at he
        have : e = Event.execStep i false := by simpa using he
        rw [this, evKey]

theorem eventsLoop_pairwise (oracle : StepOracle) :
    ∀ (steps : List Step) (i : Nat),
      List.Pairwise (fun a b => evKey a < evKey b) (runTestEventsLoop oracle steps i) := by
  intro steps
  induction steps with
  | nil => intro i; rw [eventsLoop_nil]; exact List.Pairwise.nil
  | cons step rest ih =>
      intro i
      rw [eventsLoop_cons]
      by_cases hsd : (runStep step (oracle i).1 (oracle i).2).succeeded = true
      · rw [if_pos hsd]
        refine List.pairwise_cons.mpr ⟨?_, List.pairwise_cons.mpr ⟨?_, ih (i + 1)⟩⟩
        · intro e he
          rcases List.mem_cons.mp he with he | he
          · rw [he, evKey, evKey]
            omega
          · have := eventsLoop_key_lb oracle rest (i + 1) e he
            rw [evKey]
            omega
        · intro e he
          have := eventsLoop_key_lb oracle rest (i + 1) e he
          rw [evKey]
          omega
      · rw [if_neg hsd]
        exact List.pairwise_cons.mpr ⟨fun e he => absurd he (by simp), List.Pairwise.nil⟩

theorem eventsLoop_sleep_mem (oracle : StepOracle) :
    ∀ (steps : List Step) (i j : Nat) (d : Int),
      Event.sleepAfter j d ∈ runTestEventsLoop oracle steps i →
      Event.execStep j true ∈ runTestEventsLoop oracle steps i ∧
      ∃ (k : Nat) (step : Step), j = i + k ∧ steps.get? k = some step ∧
        d = step.sleepBeforeNextStepInMs := by
  intro steps
  induction steps with
  | nil => intro i j d he; rw [eventsLoop_nil] at he; cases he
  | cons step rest ih =>
      intro i j d he
      rw [eventsLoop_cons] at he
      by_cases hsd : (runStep step (oracle i).1 (oracle i).2).succeeded = true
      · rw [if_pos hsd] at he
        rw [eventsLoop_cons, if_pos hsd]
        rcases List.mem_cons.mp he with he | he
        · cases he
        · rcases List.mem_cons.mp he with he | he
          · injection he with h1 h2
            subst h1
            subst h2
            exact ⟨List.mem_cons_self _ _, 0, step, by omega, rfl, rfl⟩
          · obtain ⟨hexec, k, step', hk, hget, hd⟩ := ih (i + 1) j d he
            refine ⟨List.mem_cons_of_mem _ (List.mem_cons_of_mem _ hexec),
              k + 1, step', by omega, by simpa using hget, hd⟩
      · rw [if_neg hsd] at he
        simp at he

theorem eventsLoop_fail_no_sleep (oracle : StepOracle) :
    ∀ (steps : List Step) (i j : Nat),
      Event.execStep j false ∈ runTestEventsLoop oracle steps i →
      ∀ d, Event.sleepAfter j d ∉ runTestEventsLoop oracle steps i := by
  intro steps
  induction steps with
  | nil => intro i j he; rw [eventsLoop_nil] at he; cases he
  | cons step rest ih =>
      intro i j he d hsleep
      rw [eventsLoop_cons] at he hsleep
      by_cases hsd : (runStep step (oracle i).1 (oracle i).2).succeeded = true
      · rw [if_pos hsd] at he hsleep
        have hje : Event.execStep j false ∈ runTestEventsLoop oracle rest (i + 1) := by
          rcases List.mem_cons.mp he with he | he
          · cases he
          · rcases List.mem_cons.mp he with he | he
            · cases he
            · exact he
        have hji : i + 1 ≤ j := by
          have := eventsLoop_key_lb oracle rest (i + 1) _ hje
          rw [evKey] at this
          omega
        rcases List.mem_cons.mp hsleep with hs | hs
        · cases hs
        · rcases List.mem_cons.mp hs with hs | hs
          · have : j = i := by
              cases hs
              rfl
            omega
          · exact ih (i + 1) j hje d hs
      · rw [if_neg hsd] at hsleep
        simp at hsleep

theorem eventsLoop_exec_succ (oracle : StepOracle) :
    ∀ (steps : List Step) (i j : Nat) (s : Bool), i ≤ j →
      Event.execStep (j + 1) s ∈ runTestEventsLoop oracle steps i →
      Event.execStep j true ∈ runTestEventsLoop oracle steps i ∧
      ∃ d, Event.sleepAfter j d ∈ runTestEventsLoop oracle steps i := by
  intro steps
  induction steps with
  | nil => intro i j s _ he; rw [eventsLoop_nil] at he; cases he
  | cons step rest ih =>
      intro i j s hij he
      rw [eventsLoop_cons] at he
      by_cases hsd : (runStep step (oracle i).1 (oracle i).2).succeeded = true
      · rw [if_pos hsd] at he
        rw [eventsLoop_cons, if_pos hsd]
        rcases List.mem_cons.mp he with he | he
        · exfalso
          have : j + 1 = i := by
            cases he
            rfl
          omega
        · rcases List.mem_cons.mp he with he | he
          · cases he
          · by_cases hji : j = i
            · subst hji
              exact ⟨List.mem_cons_self _ _,
                step.sleepBeforeNextStepInMs,
                List.mem_cons_of_mem _ (List.mem_cons_self _ _)⟩
            · have hij1 : i + 1 ≤ j := by omega
              obtain ⟨hexec, d, hsleep⟩ := ih (i + 1) j s hij1 he
              exact ⟨List.mem_cons_of_mem _ (List.mem_cons_of_mem _ hexec),
                d, List.mem_cons_of_mem _ (List.mem_cons_of_mem _ hsleep)⟩
      · rw [if_neg hsd] at he
        have : Event.execStep (j + 1) s = Event.execStep i false := by simpa using he
        exfalso
        cases this
        omega

/-- C8: in any run's event trace, events occur in strictly increasing key
order (step `i`'s execution, then step `i`'s post-step sleep, then step
`i + 1`'s execution); a post-step sleep occurs only after its own step
succeeded, with that step's configured duration; a failed step's sleep
never occurs; and a step executes only after the previous step's
execution *and* its sleep are both in the trace (so, by the ordering,
before it). -/
theorem c8_sequential_steps (steps : List Step) (oracle : StepOracle) :
    List.Pairwise (fun a b => evKey a < evKey b) (runTestEvents steps oracle) ∧
    (∀ j d, Event.sleepAfter j d ∈ runTestEvents steps oracle →
      Event.execStep j true ∈ runTestEvents steps oracle ∧
      ∃ step, steps.get? j = some step ∧ d = step.sleepBeforeNextStepInMs) ∧
    (∀ j, Event.execStep j false ∈ runTestEvents steps oracle →
      ∀ d, Event.sleepAfter j d ∉ runTestEvents steps oracle) ∧
    (∀ j s, Event.execStep (j + 1) s ∈ runTestEvents steps oracle →
      Event.execStep j true ∈ runTestEvents steps oracle ∧
      ∃ d, Event.sleepAfter j d ∈ runTestEvents steps oracle) := by
  refine ⟨eventsLoop_pairwise oracle steps 0, ?_, ?_, ?_⟩
  · intro j d he
    obtain ⟨hexec, k, step, hk, hget, hd⟩ := eventsLoop_sleep_mem oracle steps 0 j d he
    have hjk : j = k := by omega
    subst hjk
    exact ⟨hexec, step, hget, hd⟩
  · exact fun j => eventsLoop_fail_no_sleep oracle steps 0 j
  · exact fun j s => eventsLoop_exec_succ oracle steps 0 j s (Nat.zero_le j)

theorem runTestLoop_acc (oracle : StepOracle) :
    ∀ (steps : List Step) (i : Nat) (acc : List StepData),
      (runTestLoop oracle steps i acc).1 = acc ++ (runTestLoop oracle steps i []).1 ∧
      (runTestLoop oracle steps i acc).2 = (runTestLoop oracle steps i []).2 := by
  intro steps
  induction steps with
  | nil =>
      intro i acc
      rw [runTestLoop_nil, runTestLoop_nil]
      exact ⟨by simp, rfl⟩
  | cons step rest ih =>
      intro i acc
      by_cases hsd : (runStep step (oracle i).1 (oracle i).2).succeeded = true
      · rw [runTestLoop_cons, runTestLoop_cons, if_pos hsd, if_pos hsd]
        obtain ⟨ha1, ha2⟩ := ih (i + 1) (acc ++ [runStep step (oracle i).1 (oracle i).2])
        obtain ⟨hb1, hb2⟩ := ih (i + 1) ([] ++ [runStep step (oracle i).1 (oracle i).2])
        constructor
        · rw [ha1, hb1]
          simp
        · rw [ha2, hb2]
      · rw [runTestLoop_cons, runTestLoop_cons, if_neg (by simpa using hsd),
          if_neg (by simpa using hsd)]
        exact ⟨by simp, rfl⟩

/-- Which success flag an event carries (sleeps carry none). -/
def execFlag : Event → Option Bool
  | Event.execStep _ s => some s
  | Event.sleepAfter _ _ => none

/-- The event trace and the recorded `stepsData` describe the same chain:
the success flags of the trace's execution events are exactly the
`succeeded` flags of the run's records, in order. -/
theorem runTestEvents_flags (oracle : StepOracle) :
    ∀ (steps : List Step) (i : Nat),
      (runTestEventsLoop oracle steps i).filterMap execFlag =
        (runTestLoop oracle steps i []).1.map (fun sd => sd.succeeded) := by
  intro steps
  induction steps with
  | nil => intro i; rfl
  | cons step rest ih =>
      intro i
      by_cases hsd : (runStep step (oracle i).1 (oracle i).2).succeeded = true
      · rw [eventsLoop_cons, if_pos hsd, runTestLoop_cons, if_pos hsd]
        obtain ⟨hacc, _⟩ := runTestLoop_acc oracle rest (i + 1)
          ([] ++ [runStep step (oracle i).1 (oracle i).2])
        rw [hacc]
        simp [execFlag, ih (i + 1), hsd]
      · rw [eventsLoop_cons, if_neg (by simpa using hsd), runTestLoop_cons,
          if_neg (by simpa using hsd)]
        have hsd' : (runStep step (oracle i).1 (oracle i).2).succeeded = false :=
          Bool.eq_false_iff.mpr hsd
        simp [execFlag, hsd']

/-! ### URL normalization at registration -/

/-- Restatement of the spec's wording of "a scheme prefix is present": the
URL literally starts with `http://` or `https://`.  Stated from the spec,
for comparison with the source's substring check
(`url.indexOf('http') !== -1`). -/
def specSchemePresent (url : String) : Bool :=
  List.isPrefixOf "http://".toList url.toList ||
    List.isPrefixOf "https://".toList url.toList

/-- The concrete registration parameters of the C9 counterexample: a URL
with no scheme prefix that happens to contain `http` in its path. -/
def wParamsHttpPath : AddStepParams :=
  { name := "s", isHttps := false, method := "get", url := "api.example.com/http",
    body := none, headers := [], expectedResponseCode := 200,
    assertionOk := none, sleepBeforeNextStepInMs := 0 }

/-- C9, counterexample to the claim as stated: the URL
`api.example.com/http` has no scheme prefix, so per the claim `http://`
should be prepended (the https flag being false) — but `addStep` stores it
unchanged, because the source tests substring containment of `http`, not a
scheme prefix. -/
theorem c9_counterexample :
    specSchemePresent "api.example.com/http" = false ∧
    (addStep wParamsHttpPath).toOption.map (fun s => s.url) =
      some "api.example.com/http" ∧
    ("api.example.com/http" : String) ≠ "http://" ++ "api.example.com/http" := by
  refine ⟨by decide, rfl, by decide⟩

/-- C9 (amended): for parameters passing validation, the stored URL is
`p.url` unchanged whenever the four characters `http` occur *anywhere* in
it (the source checks `url.indexOf('http') !== -1`, which is substring
containment, not a scheme-prefix test); otherwise `https://` or `http://`
is prepended according to the `isHttps` flag. -/
theorem c9_url_normalization (p : AddStepParams)
    (hname : ¬ p.name = "") (hurl : ¬ p.url = "")
    (hsleep : ¬ p.sleepBeforeNextStepInMs < 0)
    (hcode : 100 ≤ p.expectedResponseCode ∧ p.expectedResponseCode < 600)
    (hm : (["get", "head", "post", "put", "patch", "delete"] : List String).contains
      p.method = true) :
    ∃ s, addStep p = Except.ok s ∧
      s.url = (if containsHttp p.url.toList then p.url
        else (if p.isHttps then "https" else "http") ++ "://" ++ p.url) := by
  have hmethod : ¬ p.method = "" := by
    intro hc
    rw [hc] at hm
    exact absurd hm (by decide)
  rw [addStep, if_neg hname, if_neg hmethod, if_neg hurl, if_neg hsleep,
    if_neg (show ¬ (p.expectedResponseCode = 0 ∨ p.expectedResponseCode < 100 ∨
      600 ≤ p.expectedResponseCode) by omega),
    if_pos hm]
  refine ⟨_, rfl, ?_⟩
  rw [normalizeUrl]

/-- The concrete registration parameters of the C9 witness: an https step
on a URL without `http` anywhere. -/
def wParamsPlain : AddStepParams :=
  { name := "s", isHttps := true, method := "get", url := "example.com",
    body := none, headers := [], expectedResponseCode := 200,
    assertionOk := none, sleepBeforeNextStepInMs := 0 }

/-- C9 (amended), witness: a URL without `http` anywhere gets the scheme
from the https flag prepended. -/
theorem c9_url_normalization_witness :
    ∃ s, addStep wParamsPlain = Except.ok s ∧
      s.url = (if containsHttp wParamsPlain.url.toList then wParamsPlain.url
        else (if wParamsPlain.isHttps then "https" else "http") ++ "://" ++
          wParamsPlain.url) :=
  c9_url_normalization wParamsPlain (by decide) (by decide) (by decide)
    (by decide) (by decide)

/-- C8, witness: the ordering part of the temporal property, instantiated
on the concrete one-step suite. -/
theorem c8_sequential_steps_witness :
    List.Pairwise (fun a b => evKey a < evKey b) (runTestEvents [wStep] wOracle200) :=
  (c8_sequential_steps [wStep] wOracle200).1

end LoadTest
